import Mathlib

/-!
# Verification of the SD-JWT wrapper (input-output-hk/sd-jwt-rust)

Shallow embedding of `src/wrapper/src/wrapper.rs` together with a model of
the SD-JWT protocol engine (issuer / holder / verifier) that the wrapper
delegates to.  JSON values are modelled as a tagged tree; JSON numbers are
modelled as integers (floating point is outside the scope of this
embedding).  serde_json's parser and compact printer are modelled by the
executable `parseJson` / `printJson` functions below.
-/

set_option maxHeartbeats 1000000

namespace SDJWT

/-- Model of `serde_json::Value`: a JSON document tree.  Objects keep their
entries as an ordered association list (serde's map, with insertion
replacing the value of an existing key).  Numbers are modelled as `Int`. -/
inductive Value where
  | null
  | bool (b : Bool)
  | num (n : Int)
  | str (s : String)
  | arr (elems : List Value)
  | obj (entries : List (String × Value))
deriving Repr

namespace Value

/-- `serde_json::Value::is_number` -/
def isNumber : Value → Bool
  | .num _ => true
  | _ => false

/-- `serde_json::Value::is_object` -/
def isObject : Value → Bool
  | .obj _ => true
  | _ => false

/-- `serde_json::Value::as_object` (object payload, if any). -/
def asObject : Value → Option (List (String × Value))
  | .obj kvs => some kvs
  | _ => none

end Value

mutual

/-- Size measure used for fuel bounds and custom induction. -/
def vsize : Value → Nat
  | .null => 1
  | .bool _ => 1
  | .num _ => 1
  | .str _ => 1
  | .arr xs => 1 + vlsize xs
  | .obj kvs => 1 + volsize kvs

/-- Size of a list of values. -/
def vlsize : List Value → Nat
  | [] => 0
  | v :: vs => 1 + vsize v + vlsize vs

/-- Size of a list of object entries. -/
def volsize : List (String × Value) → Nat
  | [] => 0
  | (_, v) :: kvs => 1 + vsize v + volsize kvs

end

theorem vsize_pos (v : Value) : 0 < vsize v := by
  cases v <;> simp [vsize]

theorem vlsize_of_mem {v : Value} {xs : List Value} (h : v ∈ xs) :
    vsize v < 1 + vlsize xs := by
  induction xs with
  | nil => cases h
  | cons x xs ih =>
    rcases List.mem_cons.mp h with rfl | h
    · simp [vlsize]; omega
    · have := ih h; simp [vlsize]; omega

theorem volsize_of_mem {p : String × Value} {kvs : List (String × Value)}
    (h : p ∈ kvs) : vsize p.2 < 1 + volsize kvs := by
  induction kvs with
  | nil => cases h
  | cons q kvs ih =>
    rcases List.mem_cons.mp h with rfl | h
    · simp [volsize]; omega
    · have := ih h; obtain ⟨k, v⟩ := q; simp [volsize]; omega

/-- Custom structural induction principle for the nested inductive
`Value`: array and object cases receive the induction hypothesis for every
member value. -/
theorem Value.rec_mem {P : Value → Prop}
    (hnull : P .null)
    (hbool : ∀ b, P (.bool b))
    (hnum : ∀ n, P (.num n))
    (hstr : ∀ s, P (.str s))
    (harr : ∀ xs, (∀ v ∈ xs, P v) → P (.arr xs))
    (hobj : ∀ kvs, (∀ p ∈ kvs, P (Prod.snd p)) → P (.obj kvs)) :
    ∀ v, P v := by
  have main : ∀ n v, vsize v ≤ n → P v := by
    intro n
    induction n with
    | zero => intro v hv; have := vsize_pos v; omega
    | succ n ih =>
      intro v hv
      cases v with
      | null => exact hnull
      | bool b => exact hbool b
      | num m => exact hnum m
      | str s => exact hstr s
      | arr xs =>
        refine harr xs (fun w hw => ih w ?_)
        have := vlsize_of_mem hw
        simp [vsize] at hv
        omega
      | obj kvs =>
        refine hobj kvs (fun p hp => ih p.2 ?_)
        have := volsize_of_mem hp
        simp [vsize] at hv
        omega
  exact fun v => main (vsize v) v le_rfl

mutual

/-- Structural (syntactic) equality test on JSON values. -/
def beqVal : Value → Value → Bool
  | .null, .null => true
  | .bool a, .bool b => a == b
  | .num a, .num b => a == b
  | .str a, .str b => a == b
  | .arr xs, .arr ys => beqValList xs ys
  | .obj a, .obj b => beqValEntries a b
  | _, _ => false

/-- Pointwise structural equality on value lists. -/
def beqValList : List Value → List Value → Bool
  | [], [] => true
  | x :: xs, y :: ys => beqVal x y && beqValList xs ys
  | _, _ => false

/-- Pointwise structural equality on entry lists. -/
def beqValEntries : List (String × Value) → List (String × Value) → Bool
  | [], [] => true
  | (k, v) :: xs, (l, w) :: ys => k == l && beqVal v w && beqValEntries xs ys
  | _, _ => false

end

theorem beqVal_iff : ∀ a b : Value, beqVal a b = true ↔ a = b := by
  have main : ∀ a : Value, ∀ b : Value, beqVal a b = true ↔ a = b := by
    intro a
    induction a using Value.rec_mem with
    | hnull => intro b; cases b <;> simp [beqVal]
    | hbool x => intro b; cases b <;> simp [beqVal]
    | hnum x => intro b; cases b <;> simp [beqVal]
    | hstr x => intro b; cases b <;> simp [beqVal]
    | harr xs ih =>
      intro b
      cases b with
      | arr ys =>
        simp only [beqVal, Value.arr.injEq]
        induction xs generalizing ys with
        | nil => cases ys <;> simp [beqValList]
        | cons x xs ihl =>
          cases ys with
          | nil => simp [beqValList]
          | cons y ys =>
            have hx := ih x (by simp)
            have hrest := ihl (fun v hv => ih v (by simp [hv])) ys
            simp [beqValList, Bool.and_eq_true, hx y, hrest]
      | null => simp [beqVal]
      | bool _ => simp [beqVal]
      | num _ => simp [beqVal]
      | str _ => simp [beqVal]
      | obj _ => simp [beqVal]
    | hobj kvs ih =>
      intro b
      cases b with
      | obj ys =>
        simp only [beqVal, Value.obj.injEq]
        induction kvs generalizing ys with
        | nil => cases ys <;> simp [beqValEntries]
        | cons x xs ihl =>
          cases ys with
          | nil => obtain ⟨k, v⟩ := x; simp [beqValEntries]
          | cons y ys =>
            obtain ⟨k, v⟩ := x
            obtain ⟨l, w⟩ := y
            have hx := ih (k, v) (by simp)
            have hrest := ihl (fun p hp => ih p (by simp [hp])) ys
            simp only [beqValEntries, Bool.and_eq_true, beq_iff_eq, hx w, hrest,
              List.cons.injEq, Prod.mk.injEq]
            try tauto
      | null => simp [beqVal]
      | bool _ => simp [beqVal]
      | num _ => simp [beqVal]
      | str _ => simp [beqVal]
      | arr _ => simp [beqVal]
  exact main

instance : DecidableEq Value := fun a b =>
  decidable_of_iff (beqVal a b = true) (beqVal_iff a b)

/-! ## Association-list operations (model of serde_json's object map) -/

/-- Lookup in an object entry list (serde map `get`). -/
def lookupEntry : List (String × Value) → String → Option Value
  | [], _ => none
  | (k', v) :: rest, k => if k' = k then some v else lookupEntry rest k

/-- Keys of an object entry list. -/
def entryKeys (kvs : List (String × Value)) : List String := kvs.map Prod.fst

/-- Prepend an entry to an already-deduplicated entry list, with serde's
map-insertion semantics: a later duplicate key keeps the later value (the
parser feeds entries right to left, so `es` already holds the later
entries and wins on a clash). -/
def dedupCons (k : String) (v : Value) (es : List (String × Value)) :
    List (String × Value) :=
  match lookupEntry es k with
  | some _ => es
  | none => (k, v) :: es

/-! ## Model of serde_json's compact printer (`serde_json::to_string`) -/

/-- Lower-case hexadecimal digit character. -/
def hexDigitChar (n : Nat) : Char :=
  if n < 10 then Char.ofNat (48 + n) else Char.ofNat (87 + n)

/-- Escape one character of a JSON string literal.  The quote and the
backslash get two-character escapes; control characters are printed as
`\u00XX` (serde prints a few of them with short escapes such as `\n`,
which the parser below also accepts; the uniform `\u00XX` form is
equivalent for every property proved here). -/
def escapeChar (c : Char) : List Char :=
  if c = '"' then ['\\', '"']
  else if c = '\\' then ['\\', '\\']
  else if c.toNat < 32 then
    ['\\', 'u', '0', '0', hexDigitChar (c.toNat / 16), hexDigitChar (c.toNat % 16)]
  else [c]

/-- Escape a character list. -/
def escapeChars : List Char → List Char
  | [] => []
  | c :: cs => escapeChar c ++ escapeChars cs

/-- Print a JSON string literal, quotes included. -/
def printStr (s : String) : List Char :=
  '"' :: (escapeChars s.data ++ ['"'])

/-- Decimal digits of a natural number (no leading zeros). -/
def natChars (n : Nat) : List Char :=
  if h : n < 10 then [Char.ofNat (48 + n)]
  else natChars (n / 10) ++ [Char.ofNat (48 + n % 10)]
termination_by n
decreasing_by
  have : 10 ≤ n := Nat.le_of_not_lt h
  exact Nat.div_lt_self (by omega) (by omega)

/-- Decimal representation of an integer. -/
def intChars (n : Int) : List Char :=
  if n < 0 then '-' :: natChars (-n).toNat else natChars n.toNat

mutual

/-- Model of serde_json's compact printing of a value. -/
def printVal : Value → List Char
  | .null => ['n', 'u', 'l', 'l']
  | .num n => intChars n
  | .bool true => ['t', 'r', 'u', 'e']
  | .str s => printStr s
  | .bool false => ['f', 'a', 'l', 's', 'e']
  | .arr xs => '[' :: (printElems xs ++ [']'])
  | .obj kvs => '{' :: (printEntries kvs ++ ['}'])

/-- Comma-separated printing of array elements. -/
def printElems : List Value → List Char
  | [] => []
  | [v] => printVal v
  | v :: vs => printVal v ++ ',' :: printElems vs

/-- Comma-separated printing of object entries. -/
def printEntries : List (String × Value) → List Char
  | [] => []
  | [(k, v)] => printStr k ++ ':' :: printVal v
  | (k, v) :: kvs => printStr k ++ ':' :: printVal v ++ ',' :: printEntries kvs

end

/-- `serde_json::to_string` model. -/
def printJson (v : Value) : String := String.mk (printVal v)

/-! ## Model of serde_json's parser (`serde_json::from_str`)

Executable recursive-descent parser.  Modelling restrictions, stated once:
JSON numbers with a fraction or exponent are rejected (numbers are `Int`
in this embedding; floating point is out of scope), and `\uXXXX` escapes
in the surrogate range are rejected (surrogate pairs are out of scope).
-/

/-- JSON whitespace. -/
def isWsChar (c : Char) : Bool :=
  c = ' ' || c = '\t' || c = '\n' || c = '\r'

/-- Drop leading whitespace. -/
def skipWs : List Char → List Char
  | [] => []
  | c :: cs => if isWsChar c then skipWs cs else c :: cs

/-- Decimal digit value of a character, if any. -/
def digitVal? (c : Char) : Option Nat :=
  if 48 ≤ c.toNat ∧ c.toNat ≤ 57 then some (c.toNat - 48) else none

/-- Hexadecimal digit value of a character, if any. -/
def hexVal? (c : Char) : Option Nat :=
  if 48 ≤ c.toNat ∧ c.toNat ≤ 57 then some (c.toNat - 48)
  else if 97 ≤ c.toNat ∧ c.toNat ≤ 102 then some (c.toNat - 87)
  else if 65 ≤ c.toNat ∧ c.toNat ≤ 70 then some (c.toNat - 55)
  else none

/-- Single-character string escapes. -/
def unescape? (c : Char) : Option Char :=
  if c = '"' then some '"'
  else if c = '\\' then some '\\'
  else if c = '/' then some '/'
  else if c = 'b' then some (Char.ofNat 8)
  else if c = 'f' then some (Char.ofNat 12)
  else if c = 'n' then some '\n'
  else if c = 'r' then some '\r'
  else if c = 't' then some '\t'
  else none

mutual

/-- Parse the body of a string literal (after the opening quote), up to
and including the closing quote.  Returns the decoded characters and the
remaining input. -/
def parseStrChars : List Char → Option (List Char × List Char)
  | [] => none
  | c :: cs =>
    if c = '"' then some ([], cs)
    else if c = '\\' then parseStrEsc cs
    else if c.toNat < 32 then none
    else (fun p => (c :: p.1, p.2)) <$> parseStrChars cs

/-- Parse what follows a backslash inside a string literal. -/
def parseStrEsc : List Char → Option (List Char × List Char)
  | 'u' :: h1 :: h2 :: h3 :: h4 :: cs' =>
    (match hexVal? h1, hexVal? h2, hexVal? h3, hexVal? h4 with
     | some a, some b, some d, some e =>
       let code := ((a * 16 + b) * 16 + d) * 16 + e
       if code < 55296 ∨ 57344 ≤ code then
         (fun p => (Char.ofNat code :: p.1, p.2)) <$> parseStrChars cs'
       else none
     | _, _, _, _ => none)
  | e :: cs' =>
    (match unescape? e with
     | some u => (fun p => (u :: p.1, p.2)) <$> parseStrChars cs'
     | none => none)
  | [] => none

end

/-- Longest prefix of decimal digits. -/
def takeDigits : List Char → (List Nat × List Char)
  | [] => ([], [])
  | c :: cs =>
    match digitVal? c with
    | some d => let p := takeDigits cs; (d :: p.1, p.2)
    | none => ([], c :: cs)

/-- Numeric value of a digit list. -/
def digitsToNat (ds : List Nat) : Nat :=
  ds.foldl (fun acc d => 10 * acc + d) 0

/-- Parse an unsigned JSON integer (leading zeros rejected as in JSON:
a leading `0` is a complete number by itself). -/
def parseNatNum : List Char → Option (Nat × List Char)
  | [] => none
  | c :: cs =>
    match digitVal? c with
    | some d =>
      if d = 0 then some (0, cs)
      else
        let p := takeDigits cs
        some (digitsToNat (d :: p.1), p.2)
    | none => none

/-- Parse a JSON integer with optional sign. -/
def parseNum : List Char → Option (Int × List Char)
  | [] => none
  | c :: cs =>
    if c = '-' then (fun p => (-(Int.ofNat p.1), p.2)) <$> parseNatNum cs
    else (fun p => (Int.ofNat p.1, p.2)) <$> parseNatNum (c :: cs)

mutual

/-- Parse one JSON value (leading whitespace allowed), returning the value
and the rest of the input.  `fuel` bounds the recursion depth; the
top-level entry point supplies more fuel than any input can consume. -/
def parseVal : Nat → List Char → Option (Value × List Char)
  | 0, _ => none
  | fuel + 1, cs =>
    match skipWs cs with
    | [] => none
    | c :: cs' =>
      if c = 'n' then
        match cs' with
        | 'u' :: 'l' :: 'l' :: rest => some (.null, rest)
        | _ => none
      else if c = 't' then
        match cs' with
        | 'r' :: 'u' :: 'e' :: rest => some (.bool true, rest)
        | _ => none
      else if c = 'f' then
        match cs' with
        | 'a' :: 'l' :: 's' :: 'e' :: rest => some (.bool false, rest)
        | _ => none
      else if c = '"' then
        (fun p => (Value.str (String.mk p.1), p.2)) <$> parseStrChars cs'
      else if c = '[' then
        (if (skipWs cs').head? = some ']' then some (.arr [], (skipWs cs').tail)
         else (fun p => (Value.arr p.1, p.2)) <$> parseElems fuel (skipWs cs'))
      else if c = '{' then
        (if (skipWs cs').head? = some '}' then some (.obj [], (skipWs cs').tail)
         else (fun p => (Value.obj p.1, p.2)) <$> parseEntries fuel (skipWs cs'))
      else
        (fun p => (Value.num p.1, p.2)) <$> parseNum (c :: cs')

/-- Parse the elements of a non-empty array, up to and including the
closing bracket. -/
def parseElems : Nat → List Char → Option (List Value × List Char)
  | 0, _ => none
  | fuel + 1, cs =>
    match parseVal (fuel + 1) cs with
    | none => none
    | some (v, rest) =>
      match skipWs rest with
      | ',' :: rest' => (fun p => (v :: p.1, p.2)) <$> parseElems fuel rest'
      | ']' :: rest' => some ([v], rest')
      | _ => none

/-- Parse the entries of a non-empty object, up to and including the
closing brace.  Duplicate keys follow serde's map insertion: the later
value wins. -/
def parseEntries : Nat → List Char → Option (List (String × Value) × List Char)
  | 0, _ => none
  | fuel + 1, cs =>
    match skipWs cs with
    | '"' :: cs' =>
      match parseStrChars cs' with
      | none => none
      | some (kchars, rest) =>
        match skipWs rest with
        | ':' :: rest' =>
          match parseVal (fuel + 1) rest' with
          | none => none
          | some (v, rest2) =>
            match skipWs rest2 with
            | ',' :: rest3 =>
              (fun p => (dedupCons (String.mk kchars) v p.1, p.2)) <$>
                parseEntries fuel rest3
            | '}' :: rest3 => some ([(String.mk kchars, v)], rest3)
            | _ => none
        | _ => none
    | _ => none

end

/-- `serde_json::from_str` model: parse a complete document (only
whitespace may follow the value). -/
def parseJson (s : String) : Option Value :=
  match parseVal (s.length + 1) s.data with
  | some (v, rest) => if skipWs rest = [] then some v else none
  | none => none

/-! ## serde_json's structural equality (`PartialEq` for `Value`)

`SDJWTVerifierWrapper::verify` compares the two parsed claim documents
with `Map::eq`: equal length, and every key of the left map present in
the right map with an equal value.  Arrays compare pointwise. -/

mutual

/-- serde_json's `PartialEq` for `Value`. -/
def serdeEqVal : Value → Value → Bool
  | .null, .null => true
  | .bool a, .bool b => a == b
  | .num a, .num b => a == b
  | .str a, .str b => a == b
  | .arr xs, .arr ys => serdeEqList xs ys
  | .obj a, .obj b => a.length == b.length && serdeEqAll a b
  | _, _ => false

/-- Pointwise equality of sequences (`Vec::eq`). -/
def serdeEqList : List Value → List Value → Bool
  | [], [] => true
  | x :: xs, y :: ys => serdeEqVal x y && serdeEqList xs ys
  | _, _ => false

/-- Every left entry is present in the right map with an equal value. -/
def serdeEqAll : List (String × Value) → List (String × Value) → Bool
  | [], _ => true
  | (k, v) :: rest, b =>
    (match lookupEntry b k with
     | some w => serdeEqVal v w
     | none => false) && serdeEqAll rest b

end

/-- Every key of `a` occurs in `b`. -/
def keysSubset (a b : List (String × Value)) : Bool :=
  a.all (fun p => (lookupEntry b p.1).isSome)

mutual

/-- The structural equality stated by the spec for `verify` (§4.5): same
object key set (order-independent) and an equal value at every key;
arrays pointwise; scalars by equality.  This is the spec-worded
definition, to be compared with `serdeEqVal`, the one from the source. -/
def specStructEq : Value → Value → Bool
  | .null, .null => true
  | .bool a, .bool b => a == b
  | .num a, .num b => a == b
  | .str a, .str b => a == b
  | .arr xs, .arr ys => specEqList xs ys
  | .obj a, .obj b => keysSubset a b && keysSubset b a && specEqAll a b
  | _, _ => false

/-- Pointwise spec equality of sequences. -/
def specEqList : List Value → List Value → Bool
  | [], [] => true
  | x :: xs, y :: ys => specStructEq x y && specEqList xs ys
  | _, _ => false

/-- Every left entry matches the right map's value at the same key. -/
def specEqAll : List (String × Value) → List (String × Value) → Bool
  | [], _ => true
  | (k, v) :: rest, b =>
    (match lookupEntry b k with
     | some w => specStructEq v w
     | none => false) && specEqAll rest b

end

/-! ## The wrapper's error and outcome model -/

/-- The variants of `SDJWTError` (wrapper lines 21–109).  The carried
messages come from external libraries and are elided; only the variant
matters to the claims. -/
inductive ErrKind where
  | ConversionError
  | DeserializationError
  | DataFieldMismatch
  | DuplicateDigestError
  | DuplicateKeyError
  | InvalidDisclosure
  | InvalidArrayDisclosureObject
  | InvalidPath
  | IndexOutOfBounds
  | InvalidState
  | InvalidInput
  | KeyNotFound
  | Unspecified
deriving Repr, DecidableEq

/-- Result of running a wrapper call: a normal return, a typed
`SDJWTError`, or a Rust `panic!`/`unwrap` abort of the process. -/
inductive RunResult (α : Type) where
  | ok (a : α)
  | err (e : ErrKind)
  | aborted (msg : String)
deriving Repr, DecidableEq

/-- Whether a run aborted. -/
def RunResult.isAborted {α : Type} : RunResult α → Bool
  | .aborted _ => true
  | _ => false

/-! ## `SDJWTHolderWrapper` (wrapper lines 471–569) -/

/-- `SDJWTHolderWrapper::convert` (lines 552–568): turn the parsed claims
object into string form.  A `String` value is kept, a number or an object
is printed (`value.to_string()`), and any other value —  boolean, null or
array — hits `panic!("Should never be an error here")`.  The Rust
original fills an unordered `HashMap`; the model keeps encounter order,
which no claim depends on. -/
def convert : List (String × Value) → RunResult (List (String × String))
  | [] => .ok []
  | (k, v) :: rest =>
    match v with
    | .str s =>
      match convert rest with
      | .ok hm => .ok ((k, s) :: hm)
      | .err e => .err e
      | .aborted m => .aborted m
    | .num n =>
      match convert rest with
      | .ok hm => .ok ((k, String.mk (intChars n)) :: hm)
      | .err e => .err e
      | .aborted m => .aborted m
    | .obj o =>
      match convert rest with
      | .ok hm => .ok ((k, printJson (.obj o)) :: hm)
      | .err e => .err e
      | .aborted m => .aborted m
    | _ => .aborted "Should never be an error here"

/-- The re-parse loop of `create_presentation` (lines 513–521) for one
converted string: parse it as JSON; on failure keep it as a string; if it
parsed as a number, put the original string back instead. -/
def coerceClaimStr (s : String) : Value :=
  match parseJson s with
  | none => .str s
  | some v => if v.isNumber then .str s else v

/-- `SDJWTHolderWrapper::create_presentation`, the wrapper's own
pre-processing (lines 509–522): `unwrap` the parse of the caller's JSON,
`unwrap` `as_object`, `convert`, then re-parse every converted string
with `coerceClaimStr`.  The result is the claims map handed to the core
holder. -/
def createPresentationPre (claims_to_disclose_json : String) :
    RunResult (List (String × Value)) :=
  match parseJson claims_to_disclose_json with
  | none => .aborted "called `Result::unwrap()` on an `Err` value"
  | some v =>
    match v with
    | .obj kvs =>
      match convert kvs with
      | .ok hm => .ok (hm.map (fun p => (p.1, coerceClaimStr p.2)))
      | .err e => .err e
      | .aborted m => .aborted m
    | _ => .aborted "called `Option::unwrap()` on a `None` value"

/-! ## `SDJWTVerifierWrapper` (wrapper lines 573–653) -/

/-- jsonwebtoken's `Algorithm`: the `alg` values a JWT header can carry. -/
inductive Algorithm where
  | HS256 | HS384 | HS512
  | ES256 | ES384
  | RS256 | RS384 | RS512
  | PS256 | PS384 | PS512
  | EdDSA
deriving Repr, DecidableEq

/-- The public-key decodings the verifier's key-resolution closure can
apply to the supplied PEM bytes. -/
inductive KeyFamily where
  | ecPem
  | rsaPem
  | edPem
deriving Repr, DecidableEq

/-- Outcome of the key-resolution closure: a decoded key of some family,
or a process abort. -/
inductive ResolveOutcome where
  | decoded (fam : KeyFamily)
  | aborted (msg : String)
deriving Repr, DecidableEq

/-- The key-resolution closure of `SDJWTVerifierWrapper::new` (lines
602–613): dispatch on the header algorithm to an EC, RSA or Ed25519 PEM
decode; every other algorithm hits `panic!("Unsupported algorithm")`.
(The `unwrap` on the PEM decode itself concerns the external key parser
and is outside this dispatch.) -/
def resolveKey : Algorithm → ResolveOutcome
  | .ES256 | .ES384 => .decoded .ecPem
  | .RS256 | .RS384 | .RS512 => .decoded .rsaPem
  | .EdDSA => .decoded .edPem
  | _ => .aborted "Unsupported algorithm"

/-- The algorithm set the wrapper supports. -/
def supportedAlgorithms : List Algorithm :=
  [.ES256, .ES384, .RS256, .RS384, .RS512, .EdDSA]

/-- `SDJWTVerifierWrapper::get_verified_claims` (lines 624–626):
`verified_claims.to_string()`. -/
def getVerifiedClaims (verified_claims : Value) : String :=
  printJson verified_claims

/-- `SDJWTVerifierWrapper::verify` (lines 643–652): `unwrap` the parse of
the caller's claims and of the re-printed verified claims, `unwrap` both
`as_object`, and compare the two serde maps with `Map::eq`. -/
def verify (verified_claims : Value) (user_claims_json : String) :
    RunResult Bool :=
  match parseJson user_claims_json with
  | none => .aborted "Failed to parse JSON"
  | some u =>
    match u with
    | .obj um =>
      match parseJson (getVerifiedClaims verified_claims) with
      | none => .aborted "Failed to parse JSON"
      | some w =>
        match w with
        | .obj wm => .ok (um.length == wm.length && serdeEqAll um wm)
        | _ => .aborted "called `Option::unwrap()` on a `None` value"
    | _ => .aborted "called `Option::unwrap()` on a `None` value"

/-! ## `SDJWTIssuerWrapper` (wrapper lines 340–469) -/

/-- `ClaimsForSelectiveDisclosureStrategy`. -/
inductive Strategy where
  | NoSDClaims
  | TopLevel
  | AllLevels
  | Custom (paths : List String)

/-- Common shape of the four `issue_sd_jwt_*` wrapper methods (lines
365–468): parse `user_claims`, mapping a serde failure to the
`Unspecified` error kind, then hand the parsed document and the
strategy to the core issuer (`core`, the `sd_jwt_rs` library call). -/
def issue_sd_jwt (core : Value → Strategy → Except ErrKind String)
    (user_claims : String) (strategy : Strategy) : Except ErrKind String :=
  match parseJson user_claims with
  | none => .error .Unspecified
  | some v => core v strategy

/-! ## `JwkValue` (wrapper lines 303–338) -/

/-- Modelled from the spec: the JWK key material (`jsonwebtoken::jwk::Jwk`,
an external collaborator — spec §1 excludes JWK parsing).  Modelled as the
`kty` tag plus the remaining string-valued members. -/
structure Jwk where
  kty : String
  params : List (String × String)
deriving Repr, DecidableEq

/-- The `kty` values a JWK can carry (EC, RSA, symmetric, OKP). -/
def jwkKtys : List String := ["EC", "RSA", "oct", "OKP"]

/-- One JWK member as kept by deserialization: the `kty` slot itself is
held separately, and only string-valued members are retained. -/
def jwkParamOf (p : String × Value) : Option (String × String) :=
  if p.1 = "kty" then none
  else match p.2 with
       | .str s => some (p.1, s)
       | _ => none

/-- Modelled from the spec: deserialization of a `Jwk` from a parsed JSON
document: the document must be an object with a valid `"kty"`; the other
string-valued members are kept, anything else is ignored (serde ignores
fields it does not know). -/
def jwkFromValue : Value → Option Jwk
  | .obj kvs =>
    (match lookupEntry kvs "kty" with
     | some (.str t) =>
       if t ∈ jwkKtys then some ⟨t, kvs.filterMap jwkParamOf⟩ else none
     | _ => none)
  | _ => none

/-- Serialization of a `Jwk` back to a JSON document. -/
def jwkToValue (j : Jwk) : Value :=
  .obj (("kty", .str j.kty) :: j.params.map (fun p => (p.1, .str p.2)))

/-- `JwkValue::new` (lines 311–318): deserialize the JSON text; a serde
failure is converted by the `Into` impl (lines 111–115) to
`ConversionError`. -/
def JwkValue.new (jwk_json : String) : Except ErrKind Jwk :=
  match parseJson jwk_json with
  | none => .error .ConversionError
  | some v =>
    match jwkFromValue v with
    | some j => .ok j
    | none => .error .ConversionError

/-- `JwkValue::get_json` (lines 321–323):
`serde_json::to_string(&self.core).unwrap()`. -/
def JwkValue.get_json (j : Jwk) : String :=
  printJson (jwkToValue j)

/-! ## Spec-modelled SD-JWT protocol core

The `sd_jwt_rs` engine the wrapper delegates to (`SDJWTIssuer::issue_sd_jwt`,
`SDJWTHolder::create_presentation`, `SDJWTVerifier`'s reconstruction) is
code of this repository that is not under `src/`; the definitions below
are modelled from the spec (§3, §4.2–§4.5). -/

/-- Modelled from the spec (§3): a disclosure is salt + optional claim
key + value; the key is present for object-entry disclosures and absent
for array-element disclosures.  The salt, "cryptographically random,
unique per disclosure within one issuance", is modelled as an opaque
counter token. -/
structure Disclosure where
  salt : Nat
  key : Option String
  value : Value
deriving Repr, DecidableEq

/-- Modelled from the spec (§3): the digest string of a disclosure,
`base64url(hash(compact_encoding(salt, key?, value)))`, idealized as
collision-free (hash collisions are out of scope); since salts are unique
per issuance, the digest is modelled as an injective function of the
salt. -/
def digestStr (n : Nat) : String := String.mk (List.replicate n 'd')

/-- Digest of a disclosure. -/
def digestOf (d : Disclosure) : String := digestStr d.salt

/-- The reserved claim name holding the digest array (spec §6). -/
def sdKey : String := "_sd"

/-- The reserved claim name holding the hash algorithm (spec §6). -/
def sdAlgKey : String := "_sd_alg"

/-- The reserved key of an inline array-element digest marker (spec §6). -/
def arrMarkerKey : String := "..."

mutual

/-- Modelled from the spec (§4.2, strategy `AllLevels`): transform a
claims value, recursing into every nested object and array; each object
entry and each array element becomes a disclosure over its already
transformed value; object digests collect under `_sd`, array elements
become inline `{"...": digest}` markers.  Returns the transformed value,
the disclosures in creation order, and the next salt counter. -/
def trAll : Value → Nat → Value × List Disclosure × Nat
  | .obj kvs, n =>
    let r := trEntries kvs n
    (.obj [(sdKey, .arr r.1)], r.2.1, r.2.2)
  | .arr xs, n =>
    let r := trElems xs n
    (.arr r.1, r.2.1, r.2.2)
  | v, n => (v, [], n)

/-- Transform the entries of an object: digest list, disclosures,
next counter. -/
def trEntries : List (String × Value) → Nat → List Value × List Disclosure × Nat
  | [], n => ([], [], n)
  | (k, v) :: rest, n =>
    let rv := trAll v n
    let d : Disclosure := ⟨rv.2.2, some k, rv.1⟩
    let rr := trEntries rest (rv.2.2 + 1)
    (Value.str (digestOf d) :: rr.1, rv.2.1 ++ d :: rr.2.1, rr.2.2)

/-- Transform the elements of an array: marker list, disclosures,
next counter. -/
def trElems : List Value → Nat → List Value × List Disclosure × Nat
  | [], n => ([], [], n)
  | v :: rest, n =>
    let rv := trAll v n
    let d : Disclosure := ⟨rv.2.2, none, rv.1⟩
    let rr := trElems rest (rv.2.2 + 1)
    (Value.obj [(arrMarkerKey, .str (digestOf d))] :: rr.1,
      rv.2.1 ++ d :: rr.2.1, rr.2.2)

end

/-- Modelled from the spec (§4.3): issue with `AllLevels`: run the claim
selector and attach `_sd_alg`; a claims document that is not an object at
the top level fails with `DataFieldMismatch`.  (Signing and decoys are
external to the properties considered and are not modelled.) -/
def issueAllLevels (claims : Value) : Except ErrKind (Value × List Disclosure) :=
  match claims with
  | .obj kvs =>
    let r := trEntries kvs 0
    .ok (.obj [(sdKey, .arr r.1), (sdAlgKey, .str "sha-256")], r.2.1)
  | _ => .error .DataFieldMismatch

/-- DigestSet lookup: the disclosure with the given digest, if any. -/
def findByDigest (ds : List Disclosure) (g : String) : Option Disclosure :=
  ds.find? (fun d => digestOf d = g)

/-- The digest entries of an object's `_sd` slot. -/
def sdDigests (pkvs : List (String × Value)) : List Value :=
  match lookupEntry pkvs sdKey with
  | some (.arr gs) => gs
  | _ => []

/-- Resolve a requested claim key against the `_sd` digests of the
protected object: the first digest whose disclosure reveals that key. -/
def findKeyDisclosure (ds : List Disclosure) : List Value → String → Option Disclosure
  | [], _ => none
  | .str g :: rest, k =>
    (match findByDigest ds g with
     | some d => if d.key = some k then some d else findKeyDisclosure ds rest k
     | none => findKeyDisclosure ds rest k)
  | _ :: rest, k => findKeyDisclosure ds rest k

/-- The digest of an inline array-element marker `{"...": digest}`. -/
def markerDigest : Value → Option String
  | .obj [(k, .str g)] => if k = arrMarkerKey then some g else none
  | _ => none

mutual

/-- Modelled from the spec (§4.4): walk `claims_to_disclose` in parallel
with the protected claims.  A requested key with a plain counterpart is
already visible and only recursed into; a requested key resolvable
through the `_sd` digests selects that disclosure and recurses into the
revealed value; requested paths that resolve nowhere are ignored.  Array
elements walk positionally, resolving inline digest markers. -/
def holderSelect (ds : List Disclosure) : Value → Value → List Disclosure
  | .obj ckvs, .obj pkvs => holderSelectEntries ds ckvs pkvs
  | .arr cxs, .arr pxs => holderSelectElems ds cxs pxs
  | _, _ => []

/-- Selection over the requested object entries. -/
def holderSelectEntries (ds : List Disclosure) :
    List (String × Value) → List (String × Value) → List Disclosure
  | [], _ => []
  | (k, cv) :: rest, pkvs =>
    (match lookupEntry pkvs k with
     | some pv => holderSelect ds cv pv
     | none =>
       match findKeyDisclosure ds (sdDigests pkvs) k with
       | some d => d :: holderSelect ds cv d.value
       | none => []) ++ holderSelectEntries ds rest pkvs

/-- Positional selection over the requested array elements. -/
def holderSelectElems (ds : List Disclosure) :
    List Value → List Value → List Disclosure
  | [], _ => []
  | _ :: _, [] => []
  | cv :: crest, pv :: prest =>
    (match markerDigest pv with
     | some g =>
       match findByDigest ds g with
       | some d => d :: holderSelect ds cv d.value
       | none => []
     | none => holderSelect ds cv pv) ++ holderSelectElems ds crest prest

end

/-- All strings distinct. -/
def distinctStrs : List String → Bool
  | [] => true
  | s :: rest => !(rest.contains s) && distinctStrs rest

mutual

/-- Modelled from the spec (§4.5 steps 2–3): substitute every digest
reference by its disclosure's value, recursively; machinery keys
(`_sd`, `_sd_alg`) are stripped; an unresolvable digest stays undisclosed
and its claim is simply absent; a disclosed key clashing with another
disclosed or plain sibling key is DuplicateKeyError (`none`); an object
disclosure without a key in an `_sd` slot is malformed (`none`).  `fuel`
bounds the recursion into revealed values. -/
def reconVal (ds : List Disclosure) : Nat → Value → Option Value
  | 0, _ => none
  | fuel + 1, .obj pkvs =>
    (match reconEntries ds fuel
        (pkvs.filter (fun p => p.1 ≠ sdKey && p.1 ≠ sdAlgKey)) with
     | none => none
     | some plain =>
       match reconDigests ds fuel (sdDigests pkvs) with
       | none => none
       | some resolved =>
         if distinctStrs (entryKeys plain ++ entryKeys resolved) then
           some (.obj (plain ++ resolved))
         else none)
  | fuel + 1, .arr pxs =>
    (match reconElems ds fuel pxs with
     | none => none
     | some xs => some (.arr xs))
  | _ + 1, v => some v

/-- Reconstruct the plain entries of an object. -/
def reconEntries (ds : List Disclosure) :
    Nat → List (String × Value) → Option (List (String × Value))
  | _, [] => some []
  | fuel, (k, v) :: rest =>
    match reconVal ds fuel v with
    | none => none
    | some w =>
      match reconEntries ds fuel rest with
      | none => none
      | some ws => some ((k, w) :: ws)

/-- Resolve the digests of an `_sd` slot into disclosed entries. -/
def reconDigests (ds : List Disclosure) :
    Nat → List Value → Option (List (String × Value))
  | _, [] => some []
  | fuel, g :: rest =>
    match g with
    | .str gs =>
      (match findByDigest ds gs with
       | some d =>
         match d.key with
         | some k =>
           (match reconVal ds fuel d.value with
            | none => none
            | some w =>
              match reconDigests ds fuel rest with
              | none => none
              | some ws => some ((k, w) :: ws))
         | none => none
       | none => reconDigests ds fuel rest)
    | _ => none

/-- Reconstruct the elements of an array, resolving inline markers. -/
def reconElems (ds : List Disclosure) :
    Nat → List Value → Option (List Value)
  | _, [] => some []
  | fuel, pv :: rest =>
    match markerDigest pv with
    | some g =>
      (match findByDigest ds g with
       | some d =>
         (match d.key with
          | some _ => none
          | none =>
            match reconVal ds fuel d.value with
            | none => none
            | some w =>
              match reconElems ds fuel rest with
              | none => none
              | some ws => some (w :: ws))
       | none => reconElems ds fuel rest)
    | none =>
      match reconVal ds fuel pv with
      | none => none
      | some w =>
        match reconElems ds fuel rest with
        | none => none
        | some ws => some (w :: ws)

end

/-- Modelled from the spec (§4.5): the verifier's reconstruction over a
presentation: duplicate digests are rejected (DuplicateDigestError), then
every digest reference is substituted. -/
def verifyReconstruct (t : Value) (ds : List Disclosure) (fuel : Nat) :
    Option Value :=
  if distinctStrs (ds.map digestOf) then reconVal ds fuel t else none

/-! ## Well-formedness predicates on claims documents -/

mutual

/-- Every object in the document has distinct keys (a parsed JSON object
always does). -/
def wfVal : Value → Bool
  | .obj kvs => distinctStrs (entryKeys kvs) && wfEntries kvs
  | .arr xs => wfList xs
  | _ => true

/-- `wfVal` over array elements. -/
def wfList : List Value → Bool
  | [] => true
  | v :: vs => wfVal v && wfList vs

/-- `wfVal` over object entry values. -/
def wfEntries : List (String × Value) → Bool
  | [] => true
  | (_, v) :: kvs => wfVal v && wfEntries kvs

end

mutual

/-- No object in the document uses the reserved claim names `_sd` and
`_sd_alg` (spec §6 reserves them for the digest machinery). -/
def noReserved : Value → Bool
  | .obj kvs =>
    kvs.all (fun p => p.1 ≠ sdKey && p.1 ≠ sdAlgKey) && noReservedEntries kvs
  | .arr xs => noReservedList xs
  | _ => true

/-- `noReserved` over array elements. -/
def noReservedList : List Value → Bool
  | [] => true
  | v :: vs => noReserved v && noReservedList vs

/-- `noReserved` over object entry values. -/
def noReservedEntries : List (String × Value) → Bool
  | [] => true
  | (_, v) :: kvs => noReserved v && noReservedEntries kvs

end

/-- Every top-level value survives `SDJWTHolderWrapper::convert`: it is a
string, a number or an object. -/
def topConvertible : Value → Bool
  | .obj kvs => kvs.all (fun p =>
      match p.2 with
      | .str _ => true
      | .num _ => true
      | .obj _ => true
      | _ => false)
  | _ => false

/-- The C1 round-trip pipeline: issue the claims with `AllLevels`, run
the wrapper's `create_presentation` pre-processing on the printed claims,
select the disclosures with the core holder, and reconstruct the verified
claims. -/
def roundTrip (C : Value) : RunResult Value :=
  match issueAllLevels C with
  | .error e => .err e
  | .ok (t, ds) =>
    match createPresentationPre (printJson C) with
    | .aborted m => .aborted m
    | .err e => .err e
    | .ok ctd =>
      let sel := holderSelect ds (.obj ctd) t
      match verifyReconstruct t sel (vsize C + 1) with
      | some v => .ok v
      | none => .err .Unspecified

/-! ## Proof-support definitions -/

/-- The decimal digits of a natural number (most significant first). -/
def digitsOf (n : Nat) : List Nat :=
  if hsmall : n < 10 then [n]
  else digitsOf (n / 10) ++ [n % 10]
termination_by n
decreasing_by
  have : 10 ≤ n := Nat.le_of_not_lt hsmall
  exact Nat.div_lt_self (by omega) (by omega)

/-- The digit character for a digit value. -/
def digitCh (d : Nat) : Char := Char.ofNat (48 + d)

/-- The input does not continue with a decimal digit (so a digit run
ends exactly here). -/
def noDigitHead : List Char → Bool
  | [] => true
  | c :: _ => (digitVal? c).isNone

/-- The string `convert` produces for one claim value (strings kept,
numbers and objects printed). -/
def strForm : Value → String
  | .str s => s
  | .num n => String.mk (intChars n)
  | .obj o => printJson (.obj o)
  | _ => ""

/-! ## Supporting lemmas: characters and digit runs -/

theorem skipWs_not {c : Char} (cs : List Char) (h : isWsChar c = false) :
    skipWs (c :: cs) = c :: cs := by simp [skipWs, h]

/-- The guard facts needed about a decimal digit character. -/
theorem digitCh_facts {d : Nat} (h : d ≤ 9) :
    digitVal? (digitCh d) = some d ∧ isWsChar (digitCh d) = false ∧
    digitCh d ≠ '-' ∧ digitCh d ≠ 'n' ∧ digitCh d ≠ 't' ∧ digitCh d ≠ 'f' ∧
    digitCh d ≠ '"' ∧ digitCh d ≠ '[' ∧ digitCh d ≠ '{' ∧
    digitCh d ≠ ']' ∧ digitCh d ≠ '}' ∧ digitCh d ≠ ',' := by
  interval_cases d <;> exact ⟨by decide, by decide, by decide, by decide,
    by decide, by decide, by decide, by decide, by decide, by decide,
    by decide, by decide⟩

theorem hexVal_hexDigitChar {m : Nat} (h : m ≤ 15) :
    hexVal? (hexDigitChar m) = some m := by
  interval_cases m <;> decide

theorem digitsOf_le (n : Nat) : ∀ d ∈ digitsOf n, d ≤ 9 := by
  induction n using Nat.strong_induction_on with
  | _ n ih =>
    intro d hd
    rw [digitsOf] at hd
    split at hd
    · simp at hd; omega
    · rename_i h
      rcases List.mem_append.mp hd with h1 | h2
      · exact ih (n / 10) (Nat.div_lt_self (by omega) (by omega)) d h1
      · simp at h2; subst h2; omega

theorem digitsOf_ne_nil (n : Nat) : digitsOf n ≠ [] := by
  rw [digitsOf]
  split
  · simp
  · simp [digitsOf_ne_nil (n / 10)]
termination_by n
decreasing_by
  rename_i h
  have : 10 ≤ n := Nat.le_of_not_lt h
  exact Nat.div_lt_self (by omega) (by omega)

theorem digitsOf_head {n : Nat} (h : 1 ≤ n) :
    ∃ d ds, digitsOf n = d :: ds ∧ 1 ≤ d := by
  induction n using Nat.strong_induction_on with
  | _ n ih =>
    rw [digitsOf]
    split
    · exact ⟨n, [], rfl, h⟩
    · rename_i h10
      have hd : 1 ≤ n / 10 := by omega
      obtain ⟨d, ds, heq, hdp⟩ :=
        ih (n / 10) (Nat.div_lt_self (by omega) (by omega)) hd
      exact ⟨d, ds ++ [n % 10], by rw [heq]; simp, hdp⟩

theorem natChars_eq (n : Nat) : natChars n = (digitsOf n).map digitCh := by
  induction n using Nat.strong_induction_on with
  | _ n ih =>
    rw [natChars, digitsOf]
    split
    · simp [digitCh]
    · rename_i h
      rw [ih (n / 10) (Nat.div_lt_self (by omega) (by omega))]
      simp [digitCh]

theorem digitsToNat_append (xs : List Nat) (d : Nat) :
    digitsToNat (xs ++ [d]) = 10 * digitsToNat xs + d := by
  simp [digitsToNat, List.foldl_append]

theorem digitsToNat_digitsOf (n : Nat) : digitsToNat (digitsOf n) = n := by
  induction n using Nat.strong_induction_on with
  | _ n ih =>
    rw [digitsOf]
    split
    · simp [digitsToNat]
    · rename_i h
      rw [digitsToNat_append, ih (n / 10) (Nat.div_lt_self (by omega) (by omega))]
      omega

theorem takeDigits_run (ds : List Nat) (hds : ∀ d ∈ ds, d ≤ 9)
    (rest : List Char) (hrest : noDigitHead rest = true) :
    takeDigits (ds.map digitCh ++ rest) = (ds, rest) := by
  induction ds with
  | nil =>
    simp only [List.map_nil, List.nil_append]
    cases rest with
    | nil => rfl
    | cons c cs =>
      simp only [noDigitHead, Option.isNone_iff_eq_none] at hrest
      simp [takeDigits, hrest]
  | cons d ds ih =>
    have hd := (digitCh_facts (hds d (by simp))).1
    simp only [List.map_cons, List.cons_append, takeDigits, hd]
    rw [List.append_eq, ih (fun x hx => hds x (by simp [hx]))]

theorem parseNatNum_natChars (n : Nat) (rest : List Char)
    (hrest : noDigitHead rest = true) :
    parseNatNum (natChars n ++ rest) = some (n, rest) := by
  rw [natChars_eq]
  obtain ⟨d, ds, heq, -⟩ : ∃ d ds, digitsOf n = d :: ds ∧ True := by
    cases hne : digitsOf n with
    | nil => exact absurd hne (digitsOf_ne_nil n)
    | cons d ds => exact ⟨d, ds, rfl, trivial⟩
  rw [heq]
  have hdle : d ≤ 9 := digitsOf_le n d (by rw [heq]; simp)
  have hdv := (digitCh_facts hdle).1
  simp only [List.map_cons, List.cons_append, parseNatNum, hdv]
  by_cases hd0 : d = 0
  · subst hd0
    simp only [if_pos rfl]
    -- a leading zero means the whole number is zero: `digitsOf` starts
    -- with 0 only for n = 0, whose digit list is exactly [0]
    have hn0 : n = 0 := by
      by_contra hn0
      obtain ⟨d', ds', heq', hd'⟩ := digitsOf_head (n := n) (by omega)
      rw [heq] at heq'
      simp at heq'
      omega
    subst hn0
    have h0 : digitsOf 0 = [0] := by rw [digitsOf]; simp
    rw [h0] at heq
    injection heq with h1 h2
    rw [← h2]
    simp
  · rw [if_neg hd0, takeDigits_run ds (fun x hx => digitsOf_le n x (by rw [heq]; simp [hx])) rest hrest]
    have := digitsToNat_digitsOf n
    rw [heq] at this
    simp [this]

theorem parseNum_intChars (n : Int) (rest : List Char)
    (hrest : noDigitHead rest = true) :
    parseNum (intChars n ++ rest) = some (n, rest) := by
  rw [intChars]
  split
  · rename_i hneg
    simp only [List.cons_append, parseNum, if_pos rfl,
      parseNatNum_natChars (-n).toNat rest hrest]
    simp
    omega
  · rename_i hpos
    obtain ⟨d, ds, heq⟩ : ∃ d ds, digitsOf n.toNat = d :: ds := by
      cases hne : digitsOf n.toNat with
      | nil => exact absurd hne (digitsOf_ne_nil _)
      | cons d ds => exact ⟨d, ds, rfl⟩
    have hnc : natChars n.toNat = digitCh d :: ds.map digitCh := by
      rw [natChars_eq, heq]; simp
    have hfacts := digitCh_facts (digitsOf_le _ d (by rw [heq]; simp))
    rw [hnc, List.cons_append, parseNum, if_neg hfacts.2.2.1,
      ← List.cons_append, ← hnc, parseNatNum_natChars n.toNat rest hrest]
    simp
    omega

/-! ## Supporting lemmas: string literals -/

theorem parseStrEsc_unicode (h3 h4 : Char) (a b : Nat) (tail : List Char)
    (e3 : hexVal? h3 = some a) (e4 : hexVal? h4 = some b)
    (hlt : 16 * a + b < 55296) :
    parseStrEsc ('u' :: '0' :: '0' :: h3 :: h4 :: tail) =
      (fun p => (Char.ofNat (16 * a + b) :: p.1, p.2)) <$> parseStrChars tail := by
  have e1 : hexVal? '0' = some 0 := by decide
  simp [parseStrEsc, e1, e3, e4]
  rw [if_pos (Or.inl (by omega : a * 16 + b < 55296))]
  rw [Nat.mul_comm a 16]

theorem parseStrChars_escape (cs : List Char) (rest : List Char) :
    parseStrChars (escapeChars cs ++ '"' :: rest) = some (cs, rest) := by
  induction cs with
  | nil => simp [escapeChars, parseStrChars]
  | cons c cs ih =>
    rw [escapeChars]
    by_cases hq : c = '"'
    · subst hq
      simp [escapeChar, parseStrChars, parseStrEsc, unescape?, ih]
    · by_cases hb : c = '\\'
      · subst hb
        simp [escapeChar, parseStrChars, parseStrEsc, unescape?, ih]
      · by_cases hctl : c.toNat < 32
        · have h16 : c.toNat / 16 ≤ 15 := by omega
          have h16' : c.toNat % 16 ≤ 15 := by omega
          simp only [escapeChar, if_neg hq, if_neg hb, if_pos hctl,
            List.cons_append, List.nil_append]
          rw [parseStrChars]
          rw [if_neg (by decide : ¬('\\' : Char) = '"'), if_pos rfl]
          rw [parseStrEsc_unicode _ _ _ _ _ (hexVal_hexDigitChar h16)
            (hexVal_hexDigitChar h16') (by omega), ih]
          have hcode : 16 * (c.toNat / 16) + c.toNat % 16 = c.toNat := by omega
          simp [hcode, Char.ofNat_toNat]
        · simp [parseStrChars, escapeChar, hq, hb, hctl, ih]

theorem parseStrChars_printStr (s : String) (rest : List Char) :
    parseStrChars (escapeChars s.data ++ '"' :: rest) = some (s.data, rest) :=
  parseStrChars_escape s.data rest

/-! ## Supporting lemmas: the printed form of a value -/

theorem intChars_head (n : Int) :
    ∃ c cs, intChars n = c :: cs ∧ isWsChar c = false ∧
      c ≠ ']' ∧ c ≠ '}' ∧ c ≠ ',' ∧ c ≠ 'n' ∧ c ≠ 't' ∧ c ≠ 'f' ∧
      c ≠ '"' ∧ c ≠ '[' ∧ c ≠ '{' := by
  rw [intChars]
  split
  · exact ⟨'-', _, rfl, by decide, by decide, by decide, by decide,
      by decide, by decide, by decide, by decide, by decide, by decide⟩
  · obtain ⟨d, ds, heq⟩ : ∃ d ds, digitsOf n.toNat = d :: ds := by
      cases hne : digitsOf n.toNat with
      | nil => exact absurd hne (digitsOf_ne_nil _)
      | cons d ds => exact ⟨d, ds, rfl⟩
    obtain ⟨f1, f2, f3, f4, f5, f6, f7, f8, f9, f10, f11, f12⟩ :=
      digitCh_facts (digitsOf_le _ d (by rw [heq]; simp))
    exact ⟨digitCh d, ds.map digitCh, by rw [natChars_eq, heq]; simp,
      f2, f10, f11, f12, f4, f5, f6, f7, f8, f9⟩

theorem printVal_head (v : Value) :
    ∃ c cs, printVal v = c :: cs ∧ isWsChar c = false ∧
      c ≠ ']' ∧ c ≠ '}' ∧ c ≠ ',' := by
  cases v with
  | null => exact ⟨'n', ['u', 'l', 'l'], by simp [printVal], by decide,
      by decide, by decide, by decide⟩
  | bool b =>
    cases b with
    | true => exact ⟨'t', ['r', 'u', 'e'], by simp [printVal], by decide,
        by decide, by decide, by decide⟩
    | false => exact ⟨'f', ['a', 'l', 's', 'e'], by simp [printVal],
        by decide, by decide, by decide, by decide⟩
  | num n =>
    obtain ⟨c, cs, heq, h1, h2, h3, h4, -⟩ := intChars_head n
    exact ⟨c, cs, by simp [printVal, heq], h1, h2, h3, h4⟩
  | str s => exact ⟨'"', escapeChars s.data ++ ['"'],
      by simp [printVal, printStr], by decide, by decide, by decide,
      by decide⟩
  | arr xs => exact ⟨'[', printElems xs ++ [']'], by simp [printVal],
      by decide, by decide, by decide, by decide⟩
  | obj kvs => exact ⟨'{', printEntries kvs ++ ['}'], by simp [printVal],
      by decide, by decide, by decide, by decide⟩

theorem vlsize_le_printLen_aux (l : List Value)
    (h : ∀ v ∈ l, vsize v ≤ (printVal v).length) :
    vlsize l ≤ 1 + (printElems l).length := by
  induction l with
  | nil => simp [vlsize]
  | cons v vs ih =>
    have hv := h v (by simp)
    cases vs with
    | nil => simp [vlsize, printElems]; omega
    | cons w ws =>
      have hrest := ih (fun x hx => h x (by simp at hx ⊢; tauto))
      have e1 : vlsize (v :: w :: ws) = 1 + vsize v + vlsize (w :: ws) := by
        rw [vlsize]
      have e2 : printElems (v :: w :: ws) =
          printVal v ++ ',' :: printElems (w :: ws) := by
        rw [printElems] <;> simp
      rw [e1, e2]
      simp only [List.length_append, List.length_cons]
      omega

theorem volsize_le_printLen_aux (l : List (String × Value))
    (h : ∀ p ∈ l, vsize p.2 ≤ (printVal p.2).length) :
    volsize l ≤ 1 + (printEntries l).length := by
  induction l with
  | nil => simp [volsize]
  | cons p ps ih =>
    obtain ⟨k, v⟩ := p
    have hv := h (k, v) (by simp)
    simp only at hv
    cases ps with
    | nil => simp [volsize, printEntries]; omega
    | cons q qs =>
      have hrest := ih (fun x hx => h x (by simp at hx ⊢; tauto))
      have e1 : volsize ((k, v) :: q :: qs) = 1 + vsize v + volsize (q :: qs) := by
        rw [volsize]
      have e2 : printEntries ((k, v) :: q :: qs) =
          printStr k ++ ':' :: printVal v ++ ',' :: printEntries (q :: qs) := by
        rw [printEntries] <;> simp
      rw [e1, e2]
      simp only [List.length_append, List.length_cons]
      omega

theorem vsize_le_printLen (v : Value) : vsize v ≤ (printVal v).length := by
  induction v using Value.rec_mem with
  | hnull => simp [vsize, printVal]
  | hbool b => cases b <;> simp [vsize, printVal]
  | hnum n =>
    obtain ⟨c, cs, heq, -⟩ := intChars_head n
    simp [vsize, printVal, heq]
  | hstr s => simp [vsize, printVal, printStr]
  | harr xs ih =>
    have := vlsize_le_printLen_aux xs ih
    simp only [vsize, printVal, List.length_cons, List.length_append]
    simp
    omega
  | hobj kvs ih =>
    have := volsize_le_printLen_aux kvs ih
    simp only [vsize, printVal, List.length_cons, List.length_append]
    simp
    omega

/-! ## Supporting lemmas: association lists -/

theorem lookupEntry_eq_none_of_not_mem :
    ∀ {l : List (String × Value)} {k : String},
    k ∉ entryKeys l → lookupEntry l k = none := by
  intro l
  induction l with
  | nil => intro k h; rfl
  | cons p ps ih =>
    intro k h
    obtain ⟨k', v⟩ := p
    simp only [entryKeys, List.map_cons, List.mem_cons] at h
    push_neg at h
    rw [lookupEntry, if_neg (fun e => h.1 e.symm), ih h.2]

theorem distinctStrs_cons {s : String} {l : List String} :
    distinctStrs (s :: l) = true ↔ s ∉ l ∧ distinctStrs l = true := by
  simp [distinctStrs, List.elem_iff]

theorem wfVal_arr_mem {xs : List Value} (h : wfVal (.arr xs) = true) :
    ∀ v ∈ xs, wfVal v = true := by
  rw [wfVal] at h
  induction xs with
  | nil => intro v hv; cases hv
  | cons x xs ih =>
    rw [wfList, Bool.and_eq_true] at h
    intro v hv
    rcases List.mem_cons.mp hv with rfl | hv
    · exact h.1
    · exact ih h.2 v hv

theorem wfVal_obj {kvs : List (String × Value)} (h : wfVal (.obj kvs) = true) :
    distinctStrs (entryKeys kvs) = true ∧ ∀ p ∈ kvs, wfVal p.2 = true := by
  rw [wfVal, Bool.and_eq_true] at h
  refine ⟨h.1, ?_⟩
  have h2 := h.2
  clear h
  induction kvs with
  | nil => intro p hp; cases hp
  | cons q qs ih =>
    obtain ⟨k, v⟩ := q
    rw [wfEntries, Bool.and_eq_true] at h2
    intro p hp
    rcases List.mem_cons.mp hp with rfl | hp
    · exact h2.1
    · exact ih h2.2 p hp

/-! ## The print–parse round trip -/

theorem parseElems_print (l : List Value)
    (hmem : ∀ v ∈ l, ∀ f r, vsize v ≤ f → noDigitHead r = true →
      parseVal f (printVal v ++ r) = some (v, r)) :
    ∀ f rest, vlsize l ≤ f → l ≠ [] →
      parseElems f (printElems l ++ ']' :: rest) = some (l, rest) := by
  induction l with
  | nil => intro f rest _ hne; exact absurd rfl hne
  | cons v vs ih =>
    intro f rest hf _
    have hv := hmem v (by simp)
    obtain ⟨g, rfl⟩ : ∃ g, f = g + 1 := by
      refine ⟨f - 1, ?_⟩
      have h1 : 1 ≤ vlsize (v :: vs) := by rw [vlsize]; omega
      omega
    have hfv : vlsize (v :: vs) = 1 + vsize v + vlsize vs := by rw [vlsize]
    cases vs with
    | nil =>
      have e := hv (g + 1) (']' :: rest) (by omega) (by rfl)
      rw [printElems]
      simp [parseElems, e, skipWs, isWsChar]
    | cons w ws =>
      have e2 : printElems (v :: w :: ws) =
          printVal v ++ ',' :: printElems (w :: ws) := by
        rw [printElems] <;> simp
      have e := hv (g + 1) (',' :: (printElems (w :: ws) ++ ']' :: rest))
        (by omega) (by rfl)
      have hvl : 1 ≤ vlsize (w :: ws) := by rw [vlsize]; omega
      have ihh := ih (fun x hx f r hf' hr => hmem x (by simp [hx]) f r hf' hr)
        g rest (by omega) (by simp)
      rw [e2]
      simp only [List.append_assoc, List.cons_append]
      simp [parseElems, e, skipWs, isWsChar, ihh]

theorem parseEntries_print (l : List (String × Value))
    (hkeys : distinctStrs (entryKeys l) = true)
    (hmem : ∀ p ∈ l, ∀ f r, vsize (Prod.snd p) ≤ f → noDigitHead r = true →
      parseVal f (printVal (Prod.snd p) ++ r) = some (Prod.snd p, r)) :
    ∀ f rest, volsize l ≤ f → l ≠ [] →
      parseEntries f (printEntries l ++ '}' :: rest) = some (l, rest) := by
  induction l with
  | nil => intro f rest _ hne; exact absurd rfl hne
  | cons q qs ih =>
    intro f rest hf _
    obtain ⟨k, v⟩ := q
    have hv := hmem (k, v) (by simp)
    simp only at hv
    obtain ⟨g, rfl⟩ : ∃ g, f = g + 1 := by
      refine ⟨f - 1, ?_⟩
      have h1 : 1 ≤ volsize ((k, v) :: qs) := by rw [volsize]; omega
      omega
    have hfv : volsize ((k, v) :: qs) = 1 + vsize v + volsize qs := by
      rw [volsize]
    have hs : String.mk k.data = k := rfl
    have hkey : distinctStrs (entryKeys ((k, v) :: qs)) = true := hkeys
    rw [show entryKeys ((k, v) :: qs) = k :: entryKeys qs from rfl] at hkey
    obtain ⟨hknot, hkeys'⟩ := distinctStrs_cons.mp hkey
    cases qs with
    | nil =>
      have e := hv (g + 1) ('}' :: rest) (by omega) (by rfl)
      rw [printEntries]
      have estr := parseStrChars_escape k.data (':' :: (printVal v ++ '}' :: rest))
      simp only [printStr, List.cons_append, List.append_assoc,
        List.nil_append]
      simp [parseEntries, skipWs, isWsChar, estr, e, hs]
    | cons q2 qs2 =>
      have e2 : printEntries ((k, v) :: q2 :: qs2) =
          printStr k ++ ':' :: printVal v ++ ',' :: printEntries (q2 :: qs2) := by
        rw [printEntries] <;> simp
      have e := hv (g + 1) (',' :: (printEntries (q2 :: qs2) ++ '}' :: rest))
        (by omega) (by rfl)
      have hvl : 1 ≤ volsize (q2 :: qs2) := by rw [volsize]; omega
      have ihh := ih hkeys'
        (fun p hp f r hf' hr => hmem p (by simp [hp]) f r hf' hr)
        g rest (by omega) (by simp)
      have estr := parseStrChars_escape k.data
        (':' :: (printVal v ++ ',' :: (printEntries (q2 :: qs2) ++ '}' :: rest)))
      rw [e2]
      simp only [printStr, List.cons_append, List.append_assoc,
        List.nil_append]
      simp [parseEntries, skipWs, isWsChar, estr, e, hs, ihh]
      -- the parsed later entries carry none of the key `k`, so the serde
      -- insertion prepends the entry
      rw [dedupCons, lookupEntry_eq_none_of_not_mem hknot]

theorem parse_print : ∀ v : Value, wfVal v = true →
    ∀ fuel rest, vsize v ≤ fuel → noDigitHead rest = true →
    parseVal fuel (printVal v ++ rest) = some (v, rest) := by
  intro v
  induction v using Value.rec_mem with
  | hnull =>
    intro _ fuel rest hf _
    obtain ⟨g, rfl⟩ : ∃ g, fuel = g + 1 :=
      ⟨fuel - 1, by rw [vsize] at hf; omega⟩
    simp [printVal, parseVal, skipWs, isWsChar]
  | hbool b =>
    intro _ fuel rest hf _
    obtain ⟨g, rfl⟩ : ∃ g, fuel = g + 1 :=
      ⟨fuel - 1, by rw [vsize] at hf; omega⟩
    cases b <;> simp [printVal, parseVal, skipWs, isWsChar]
  | hnum n =>
    intro _ fuel rest hf hrest
    obtain ⟨g, rfl⟩ : ∃ g, fuel = g + 1 :=
      ⟨fuel - 1, by rw [vsize] at hf; omega⟩
    obtain ⟨c, cs, heq, hw, _, _, _, hn, ht, hfc, hq, hbr, hbc⟩ :=
      intChars_head n
    have hpn := parseNum_intChars n rest hrest
    rw [heq] at hpn
    rw [printVal, heq, List.cons_append]
    rw [List.cons_append] at hpn
    simp [parseVal, skipWs_not _ hw, hn, ht, hfc, hq, hbr, hbc, hpn]
  | hstr s =>
    intro _ fuel rest hf _
    obtain ⟨g, rfl⟩ : ∃ g, fuel = g + 1 :=
      ⟨fuel - 1, by rw [vsize] at hf; omega⟩
    have estr := parseStrChars_escape s.data rest
    have hs : String.mk s.data = s := rfl
    simp only [printVal, printStr, List.cons_append, List.append_assoc,
      List.nil_append]
    simp [parseVal, skipWs, isWsChar, estr, hs]
  | harr xs ih =>
    intro hwf fuel rest hf _
    obtain ⟨g, rfl⟩ : ∃ g, fuel = g + 1 :=
      ⟨fuel - 1, by rw [vsize] at hf; omega⟩
    have hwfm := wfVal_arr_mem hwf
    cases xs with
    | nil => simp [printVal, printElems, parseVal, skipWs, isWsChar]
    | cons x xs' =>
      have hvl : vsize (Value.arr (x :: xs')) = 1 + vlsize (x :: xs') := by
        rw [vsize]
      have helems := parseElems_print (x :: xs')
        (fun w hw f r hf' hr => ih w hw (hwfm w hw) f r hf' hr)
        g rest (by omega) (by simp)
      obtain ⟨c, cs, hpc, hcw, hcb, -, -⟩ := printVal_head x
      obtain ⟨t, hsplit⟩ : ∃ t, printElems (x :: xs') = printVal x ++ t := by
        cases xs' with
        | nil => exact ⟨[], by simp [printElems]⟩
        | cons y ys => exact ⟨',' :: printElems (y :: ys), by
            rw [printElems] <;> simp⟩
      have hhead : printElems (x :: xs') ++ ']' :: rest =
          c :: (cs ++ t ++ ']' :: rest) := by
        rw [hsplit, hpc]; simp
      rw [printVal, List.cons_append]
      simp only [List.append_assoc, List.cons_append, List.nil_append]
      simp only [parseVal]
      rw [skipWs_not _ (by decide : isWsChar '[' = false)]
      simp only [List.cons.injEq]
      simp
      rw [show skipWs (printElems (x :: xs') ++ (']' :: rest)) =
          printElems (x :: xs') ++ (']' :: rest) from by
        rw [hhead]; exact skipWs_not _ hcw]
      rw [show (printElems (x :: xs') ++ (']' :: rest)).head? = some c from by
        rw [hhead]; rfl]
      simp [hcb, helems]
  | hobj kvs ih =>
    intro hwf fuel rest hf _
    obtain ⟨g, rfl⟩ : ∃ g, fuel = g + 1 :=
      ⟨fuel - 1, by rw [vsize] at hf; omega⟩
    obtain ⟨hkeys, hwfm⟩ := wfVal_obj hwf
    cases kvs with
    | nil => simp [printVal, printEntries, parseVal, skipWs, isWsChar]
    | cons q qs =>
      obtain ⟨k, v⟩ := q
      have hvl : vsize (Value.obj ((k, v) :: qs)) = 1 + volsize ((k, v) :: qs) := by
        rw [vsize]
      have hentries := parseEntries_print ((k, v) :: qs) hkeys
        (fun p hp f r hf' hr => ih p hp (hwfm p hp) f r hf' hr)
        g rest (by omega) (by simp)
      have hhead : ∃ t, printEntries ((k, v) :: qs) = '"' :: t := by
        cases qs with
        | nil => exact ⟨escapeChars k.data ++ ['"'] ++ ':' :: printVal v, by
            rw [printEntries]; simp [printStr]⟩
        | cons q2 qs2 => exact ⟨escapeChars k.data ++ ['"'] ++ ':' :: printVal v ++
            ',' :: printEntries (q2 :: qs2), by
            rw [printEntries] <;> simp [printStr]⟩
      obtain ⟨t, hpe⟩ := hhead
      rw [printVal, List.cons_append]
      simp only [List.append_assoc, List.cons_append, List.nil_append]
      simp [parseVal, skipWs, isWsChar]
      rw [show skipWs (printEntries ((k, v) :: qs) ++ ('}' :: rest)) =
          printEntries ((k, v) :: qs) ++ ('}' :: rest) from by
        rw [hpe]; exact skipWs_not _ (by rfl)]
      rw [show (printEntries ((k, v) :: qs) ++ ('}' :: rest)).head? = some '"' from by
        rw [hpe]; rfl]
      simp [hentries]

/-! ## Every parsed document is well-formed -/

theorem lookupEntry_eq_none_iff {l : List (String × Value)} {k : String} :
    lookupEntry l k = none ↔ k ∉ entryKeys l := by
  constructor
  · intro h hk
    induction l with
    | nil => cases hk
    | cons p ps ih =>
      obtain ⟨k', v⟩ := p
      rw [lookupEntry] at h
      by_cases he : k' = k
      · rw [if_pos he] at h; cases h
      · rw [if_neg he] at h
        simp only [entryKeys, List.map_cons, List.mem_cons] at hk
        rcases hk with rfl | hk
        · exact he rfl
        · exact ih h hk
  · exact lookupEntry_eq_none_of_not_mem

theorem wfVal_arr_of_mem {xs : List Value} (h : ∀ v ∈ xs, wfVal v = true) :
    wfVal (.arr xs) = true := by
  rw [wfVal]
  induction xs with
  | nil => rfl
  | cons x xs ih =>
    rw [wfList, Bool.and_eq_true]
    exact ⟨h x (by simp), ih (fun v hv => h v (by simp [hv]))⟩

theorem wfVal_obj_of {es : List (String × Value)}
    (hkeys : distinctStrs (entryKeys es) = true)
    (h : ∀ p ∈ es, wfVal p.2 = true) : wfVal (.obj es) = true := by
  rw [wfVal, Bool.and_eq_true]
  refine ⟨hkeys, ?_⟩
  clear hkeys
  induction es with
  | nil => rfl
  | cons q qs ih =>
    obtain ⟨k, v⟩ := q
    rw [wfEntries, Bool.and_eq_true]
    exact ⟨h (k, v) (by simp), ih (fun p hp => h p (by simp [hp]))⟩

theorem dedupCons_wf {k : String} {v : Value} {es : List (String × Value)}
    (hkeys : distinctStrs (entryKeys es) = true)
    (hes : ∀ p ∈ es, wfVal p.2 = true) (hv : wfVal v = true) :
    distinctStrs (entryKeys (dedupCons k v es)) = true ∧
      ∀ p ∈ dedupCons k v es, wfVal p.2 = true := by
  rw [dedupCons]
  cases hl : lookupEntry es k with
  | some w => exact ⟨hkeys, hes⟩
  | none =>
    have hk : k ∉ entryKeys es := lookupEntry_eq_none_iff.mp hl
    refine ⟨?_, ?_⟩
    · rw [show entryKeys ((k, v) :: es) = k :: entryKeys es from rfl]
      exact distinctStrs_cons.mpr ⟨hk, hkeys⟩
    · intro p hp
      rcases List.mem_cons.mp hp with rfl | hp
      · exact hv
      · exact hes p hp

theorem parse_wf : ∀ fuel : Nat,
    (∀ cs v rest, parseVal fuel cs = some (v, rest) → wfVal v = true) ∧
    (∀ cs xs rest, parseElems fuel cs = some (xs, rest) →
      ∀ v ∈ xs, wfVal v = true) ∧
    (∀ cs es rest, parseEntries fuel cs = some (es, rest) →
      distinctStrs (entryKeys es) = true ∧ ∀ p ∈ es, wfVal p.2 = true) := by
  intro fuel
  induction fuel with
  | zero =>
    refine ⟨fun cs v rest h => ?_, fun cs xs rest h => ?_,
      fun cs es rest h => ?_⟩ <;> simp [parseVal, parseElems, parseEntries] at h
  | succ fuel ih =>
    obtain ⟨ihV, ihE, ihO⟩ := ih
    have hval : ∀ cs v rest, parseVal (fuel + 1) cs = some (v, rest) →
        wfVal v = true := by
      intro cs v rest h
      rw [parseVal] at h
      cases hsw : skipWs cs with
      | nil => rw [hsw] at h; cases h
      | cons c cs' =>
        rw [hsw] at h
        dsimp only at h
        clear hsw
        by_cases h1 : c = 'n'
        · rw [if_pos h1] at h
          split at h
          · simp at h
            rw [← h.1]
            simp [wfVal]
          · cases h
        · rw [if_neg h1] at h
          by_cases h2 : c = 't'
          · rw [if_pos h2] at h
            split at h
            · simp at h
              rw [← h.1]
              simp [wfVal]
            · cases h
          · rw [if_neg h2] at h
            by_cases h3 : c = 'f'
            · rw [if_pos h3] at h
              split at h
              · simp at h
                rw [← h.1]
                simp [wfVal]
              · cases h
            · rw [if_neg h3] at h
              by_cases h4 : c = '"'
              · rw [if_pos h4] at h
                cases hps : parseStrChars cs' with
                | none => rw [hps] at h; cases h
                | some p =>
                  rw [hps] at h
                  simp at h
                  rw [← h.1]
                  simp [wfVal]
              · rw [if_neg h4] at h
                by_cases h5 : c = '['
                · rw [if_pos h5] at h
                  split at h
                  · simp at h
                    rw [← h.1]
                    simp [wfVal, wfList]
                  · cases hpe : parseElems fuel (skipWs cs') with
                    | none => rw [hpe] at h; cases h
                    | some p =>
                      rw [hpe] at h
                      simp at h
                      rw [← h.1]
                      exact wfVal_arr_of_mem (ihE _ _ _ (by rw [hpe]))
                · rw [if_neg h5] at h
                  by_cases h6 : c = '{'
                  · rw [if_pos h6] at h
                    split at h
                    · simp at h
                      rw [← h.1]
                      simp [wfVal, wfEntries, entryKeys, distinctStrs]
                    · cases hpe : parseEntries fuel (skipWs cs') with
                      | none => rw [hpe] at h; cases h
                      | some p =>
                        rw [hpe] at h
                        simp at h
                        rw [← h.1]
                        obtain ⟨hk, hw⟩ := ihO _ _ _ (by rw [hpe])
                        exact wfVal_obj_of hk hw
                  · rw [if_neg h6] at h
                    cases hpn : parseNum (c :: cs') with
                    | none => rw [hpn] at h; cases h
                    | some p =>
                      rw [hpn] at h
                      simp at h
                      rw [← h.1]
                      simp [wfVal]
    refine ⟨hval, ?_, ?_⟩
    · intro cs xs rest h
      rw [parseElems] at h
      cases hv : parseVal (fuel + 1) cs with
      | none => rw [hv] at h; cases h
      | some p =>
        obtain ⟨pv, prest⟩ := p
        rw [hv] at h
        dsimp only at h
        split at h
        · rename_i rest' hsplit
          cases hpe : parseElems fuel rest' with
          | none => rw [hpe] at h; cases h
          | some q =>
            rw [hpe] at h
            simp at h
            intro v hmem
            rw [← h.1] at hmem
            rcases List.mem_cons.mp hmem with rfl | hmem
            · exact hval _ _ _ hv
            · exact ihE _ _ _ hpe v hmem
        · simp at h
          intro v hmem
          rw [← h.1] at hmem
          simp at hmem
          rw [hmem]
          exact hval _ _ _ hv
        · cases h
    · intro cs es rest h
      rw [parseEntries] at h
      split at h
      · rename_i cs' hsw
        cases hps : parseStrChars cs' with
        | none => rw [hps] at h; cases h
        | some kp =>
          obtain ⟨kchars, krest⟩ := kp
          rw [hps] at h
          dsimp only at h
          split at h
          · rename_i rest' hsplit
            cases hv : parseVal (fuel + 1) rest' with
            | none => rw [hv] at h; cases h
            | some p =>
              obtain ⟨pv, prest⟩ := p
              rw [hv] at h
              dsimp only at h
              split at h
              · rename_i rest3 hsplit3
                cases hpe : parseEntries fuel rest3 with
                | none => rw [hpe] at h; cases h
                | some q =>
                  rw [hpe] at h
                  simp at h
                  obtain ⟨hk, hw⟩ := ihO _ _ _ hpe
                  rw [← h.1]
                  exact dedupCons_wf hk hw (hval _ _ _ hv)
              · simp at h
                rw [← h.1]
                refine ⟨by simp [entryKeys, distinctStrs], ?_⟩
                intro p hp
                simp at hp
                rw [hp]
                exact hval _ _ _ hv
              · cases h
          · cases h
      · cases h

/-- The top-level parse produces only well-formed documents. -/
theorem parseJson_wf {s : String} {v : Value} (h : parseJson s = some v) :
    wfVal v = true := by
  rw [parseJson] at h
  cases hp : parseVal (s.length + 1) s.data with
  | none => rw [hp] at h; cases h
  | some p =>
    obtain ⟨pv, prest⟩ := p
    rw [hp] at h
    dsimp only at h
    split at h
    · simp at h
      rw [← h]
      exact (parse_wf (s.length + 1)).1 _ _ _ hp
    · cases h

/-! ## serde's map equality agrees with the spec's structural equality -/

theorem lookupEntry_isSome_iff {l : List (String × Value)} {k : String} :
    (lookupEntry l k).isSome = true ↔ k ∈ entryKeys l := by
  cases hl : lookupEntry l k with
  | none => simp [lookupEntry_eq_none_iff.mp hl]
  | some w =>
    simp only [Option.isSome_some, true_iff]
    by_contra hk
    rw [lookupEntry_eq_none_of_not_mem hk] at hl
    cases hl

theorem lookupEntry_mem {l : List (String × Value)} {k : String} {w : Value}
    (h : lookupEntry l k = some w) : (k, w) ∈ l := by
  induction l with
  | nil => cases h
  | cons p ps ih =>
    obtain ⟨k', v⟩ := p
    rw [lookupEntry] at h
    by_cases he : k' = k
    · rw [if_pos he] at h
      subst he
      injection h with h
      simp [h]
    · rw [if_neg he] at h
      simp [ih h]

theorem distinctStrs_iff_nodup {l : List String} :
    distinctStrs l = true ↔ l.Nodup := by
  induction l with
  | nil => simp [distinctStrs]
  | cons s ss ih => rw [distinctStrs_cons, List.nodup_cons, ih]

theorem serdeEqAll_iff {a b : List (String × Value)} :
    serdeEqAll a b = true ↔
      ∀ p ∈ a, ∃ w, lookupEntry b p.1 = some w ∧ serdeEqVal p.2 w = true := by
  induction a with
  | nil => simp [serdeEqAll]
  | cons q qs ih =>
    obtain ⟨k, v⟩ := q
    rw [serdeEqAll, Bool.and_eq_true, ih]
    constructor
    · rintro ⟨h1, h2⟩ p hp
      rcases List.mem_cons.mp hp with rfl | hp
      · cases hl : lookupEntry b k with
        | none => rw [hl] at h1; cases h1
        | some w => rw [hl] at h1; exact ⟨w, rfl, h1⟩
      · exact h2 p hp
    · intro h
      obtain ⟨w, hw, he⟩ := h (k, v) (by simp)
      exact ⟨by simp only at hw; rw [hw]; exact he,
        fun p hp => h p (by simp [hp])⟩

theorem specEqAll_iff {a b : List (String × Value)} :
    specEqAll a b = true ↔
      ∀ p ∈ a, ∃ w, lookupEntry b p.1 = some w ∧ specStructEq p.2 w = true := by
  induction a with
  | nil => simp [specEqAll]
  | cons q qs ih =>
    obtain ⟨k, v⟩ := q
    rw [specEqAll, Bool.and_eq_true, ih]
    constructor
    · rintro ⟨h1, h2⟩ p hp
      rcases List.mem_cons.mp hp with rfl | hp
      · cases hl : lookupEntry b k with
        | none => rw [hl] at h1; cases h1
        | some w => rw [hl] at h1; exact ⟨w, rfl, h1⟩
      · exact h2 p hp
    · intro h
      obtain ⟨w, hw, he⟩ := h (k, v) (by simp)
      exact ⟨by simp only at hw; rw [hw]; exact he,
        fun p hp => h p (by simp [hp])⟩

theorem keysSubset_iff {a b : List (String × Value)} :
    keysSubset a b = true ↔ ∀ p ∈ a, p.1 ∈ entryKeys b := by
  rw [keysSubset, List.all_eq_true]
  constructor
  · intro h p hp
    exact lookupEntry_isSome_iff.mp (by simpa using h p hp)
  · intro h p hp
    simpa using lookupEntry_isSome_iff.mpr (h p hp)

theorem entryKeys_length (l : List (String × Value)) :
    (entryKeys l).length = l.length := by simp [entryKeys]

theorem mem_entryKeys_of_mem {p : String × Value} {l : List (String × Value)}
    (h : p ∈ l) : p.1 ∈ entryKeys l := by
  simp only [entryKeys, List.mem_map]
  exact ⟨p, h, rfl⟩

theorem keys_sub_of_length {a b : List (String × Value)}
    (hna : (entryKeys a).Nodup) (hnb : (entryKeys b).Nodup)
    (hlen : a.length = b.length)
    (hsub : ∀ k ∈ entryKeys a, k ∈ entryKeys b) :
    ∀ k ∈ entryKeys b, k ∈ entryKeys a := by
  have h1 : (entryKeys a).toFinset ⊆ (entryKeys b).toFinset := by
    intro x hx
    simp only [List.mem_toFinset] at hx ⊢
    exact hsub x hx
  have hcard : (entryKeys a).toFinset.card = a.length := by
    rw [List.toFinset_card_of_nodup hna, entryKeys_length]
  have hcard2 : (entryKeys b).toFinset.card = b.length := by
    rw [List.toFinset_card_of_nodup hnb, entryKeys_length]
  have hle : (entryKeys b).toFinset.card ≤ (entryKeys a).toFinset.card := by
    omega
  have heq : (entryKeys a).toFinset = (entryKeys b).toFinset :=
    Finset.eq_of_subset_of_card_le h1 hle
  intro k hk
  have hkf : k ∈ (entryKeys b).toFinset := by simp [hk]
  rw [← heq] at hkf
  simpa using hkf

theorem length_eq_of_keys_sub {a b : List (String × Value)}
    (hna : (entryKeys a).Nodup) (hnb : (entryKeys b).Nodup)
    (hab : ∀ k ∈ entryKeys a, k ∈ entryKeys b)
    (hba : ∀ k ∈ entryKeys b, k ∈ entryKeys a) :
    a.length = b.length := by
  have h1 : (entryKeys a).toFinset = (entryKeys b).toFinset := by
    apply Finset.Subset.antisymm <;> intro x hx <;>
      simp only [List.mem_toFinset] at hx ⊢
    · exact hab x hx
    · exact hba x hx
  have hcard : (entryKeys a).toFinset.card = a.length := by
    rw [List.toFinset_card_of_nodup hna, entryKeys_length]
  have hcard2 : (entryKeys b).toFinset.card = b.length := by
    rw [List.toFinset_card_of_nodup hnb, entryKeys_length]
  have hc := congrArg Finset.card h1
  omega

theorem serdeList_iff_specList (xs : List Value)
    (hmem : ∀ v ∈ xs, wfVal v = true ∧
      ∀ b, wfVal b = true → (serdeEqVal v b = true ↔ specStructEq v b = true)) :
    ∀ ys, (∀ v ∈ ys, wfVal v = true) →
    (serdeEqList xs ys = true ↔ specEqList xs ys = true) := by
  induction xs with
  | nil => intro ys _; cases ys <;> simp [serdeEqList, specEqList]
  | cons x xs ihl =>
    intro ys hym
    cases ys with
    | nil => simp [serdeEqList, specEqList]
    | cons y ys =>
      obtain ⟨hwx, hx⟩ := hmem x (by simp)
      rw [serdeEqList, specEqList, Bool.and_eq_true, Bool.and_eq_true,
        hx y (hym y (by simp)),
        ihl (fun v hv => hmem v (by simp [hv])) ys
          (fun v hv => hym v (by simp [hv]))]

/-- On well-formed documents (objects with distinct keys, as every parsed
document is), serde's recursive equality coincides with the spec's
order-independent structural equality. -/
theorem serdeEq_iff_specEq : ∀ a, wfVal a = true → ∀ b, wfVal b = true →
    (serdeEqVal a b = true ↔ specStructEq a b = true) := by
  intro a
  induction a using Value.rec_mem with
  | hnull => intro _ b _; cases b <;> simp [serdeEqVal, specStructEq]
  | hbool x => intro _ b _; cases b <;> simp [serdeEqVal, specStructEq]
  | hnum x => intro _ b _; cases b <;> simp [serdeEqVal, specStructEq]
  | hstr x => intro _ b _; cases b <;> simp [serdeEqVal, specStructEq]
  | harr xs ih =>
    intro hwf b hwfb
    cases b with
    | arr ys =>
      rw [show serdeEqVal (.arr xs) (.arr ys) = serdeEqList xs ys from by
        rw [serdeEqVal]]
      rw [show specStructEq (.arr xs) (.arr ys) = specEqList xs ys from by
        rw [specStructEq]]
      have hxm := wfVal_arr_mem hwf
      have hym := wfVal_arr_mem hwfb
      exact serdeList_iff_specList xs
        (fun v hv => ⟨hxm v hv, fun b hb => ih v hv (hxm v hv) b hb⟩) ys hym
    | null => simp [serdeEqVal, specStructEq]
    | bool _ => simp [serdeEqVal, specStructEq]
    | num _ => simp [serdeEqVal, specStructEq]
    | str _ => simp [serdeEqVal, specStructEq]
    | obj _ => simp [serdeEqVal, specStructEq]
  | hobj kvs ih =>
    intro hwf b hwfb
    cases b with
    | obj ys =>
      obtain ⟨hka, hva⟩ := wfVal_obj hwf
      obtain ⟨hkb, hvb⟩ := wfVal_obj hwfb
      have hna : (entryKeys kvs).Nodup := distinctStrs_iff_nodup.mp hka
      have hnb : (entryKeys ys).Nodup := distinctStrs_iff_nodup.mp hkb
      rw [show serdeEqVal (.obj kvs) (.obj ys) =
          (kvs.length == ys.length && serdeEqAll kvs ys) from by rw [serdeEqVal]]
      rw [show specStructEq (.obj kvs) (.obj ys) =
          (keysSubset kvs ys && (keysSubset ys kvs && specEqAll kvs ys)) from by
        rw [specStructEq, Bool.and_assoc]]
      simp only [Bool.and_eq_true, beq_iff_eq]
      constructor
      · rintro ⟨hlen, hall⟩
        rw [serdeEqAll_iff] at hall
        have hab : ∀ k ∈ entryKeys kvs, k ∈ entryKeys ys := by
          intro k hk
          simp only [entryKeys, List.mem_map] at hk
          obtain ⟨p, hp, rfl⟩ := hk
          obtain ⟨w, hw, -⟩ := hall p hp
          exact @mem_entryKeys_of_mem (p.1, w) ys (lookupEntry_mem hw)
        refine ⟨keysSubset_iff.mpr (fun p hp => hab p.1 (mem_entryKeys_of_mem hp)),
          keysSubset_iff.mpr (fun p hp =>
            keys_sub_of_length hna hnb hlen hab p.1 (mem_entryKeys_of_mem hp)), ?_⟩
        rw [specEqAll_iff]
        intro p hp
        obtain ⟨w, hw, he⟩ := hall p hp
        have hwfw : wfVal w = true := hvb _ (lookupEntry_mem hw)
        exact ⟨w, hw, (ih p hp (hva p hp) w hwfw).mp he⟩
      · rintro ⟨hab, hba, hall⟩
        rw [keysSubset_iff] at hab hba
        have hab' : ∀ k ∈ entryKeys kvs, k ∈ entryKeys ys := by
          intro k hk
          simp only [entryKeys, List.mem_map] at hk
          obtain ⟨p, hp, rfl⟩ := hk
          exact hab p hp
        have hba' : ∀ k ∈ entryKeys ys, k ∈ entryKeys kvs := by
          intro k hk
          simp only [entryKeys, List.mem_map] at hk
          obtain ⟨p, hp, rfl⟩ := hk
          exact hba p hp
        refine ⟨length_eq_of_keys_sub hna hnb hab' hba', ?_⟩
        rw [serdeEqAll_iff]
        rw [specEqAll_iff] at hall
        intro p hp
        obtain ⟨w, hw, he⟩ := hall p hp
        have hwfw : wfVal w = true := hvb _ (lookupEntry_mem hw)
        exact ⟨w, hw, (ih p hp (hva p hp) w hwfw).mpr he⟩
    | null => simp [serdeEqVal, specStructEq]
    | bool _ => simp [serdeEqVal, specStructEq]
    | num _ => simp [serdeEqVal, specStructEq]
    | str _ => simp [serdeEqVal, specStructEq]
    | arr _ => simp [serdeEqVal, specStructEq]

/-- The top-level round trip: printing any well-formed value and parsing
it back restores the value. -/
theorem parseJson_printJson (v : Value) (hwf : wfVal v = true) :
    parseJson (printJson v) = some v := by
  rw [parseJson]
  have hlen : (printJson v).length = (printVal v).length := rfl
  have hdata : (printJson v).data = printVal v := rfl
  rw [hlen, hdata]
  have hp := parse_print v hwf ((printVal v).length + 1) []
    (by have := vsize_le_printLen v; omega) (by rfl)
  rw [List.append_nil] at hp
  rw [hp]
  simp [skipWs]

/-! ## Holder selection only draws from the token's disclosures (C3) -/

theorem findByDigest_mem {ds : List Disclosure} {g : String} {d : Disclosure}
    (h : findByDigest ds g = some d) : d ∈ ds :=
  List.mem_of_find?_eq_some h

theorem findKeyDisclosure_mem {ds : List Disclosure} {k : String}
    {d : Disclosure} :
    ∀ {gs : List Value}, findKeyDisclosure ds gs k = some d → d ∈ ds := by
  intro gs
  induction gs with
  | nil => intro h; cases h
  | cons g rest ih =>
    intro h
    cases g with
    | str gstr =>
      rw [findKeyDisclosure] at h
      cases hf : findByDigest ds gstr with
      | none => rw [hf] at h; exact ih h
      | some e =>
        rw [hf] at h
        dsimp only at h
        split at h
        · injection h with h; rw [← h]; exact findByDigest_mem hf
        · exact ih h
    | null => exact ih h
    | bool b => exact ih h
    | num m => exact ih h
    | arr xs => exact ih h
    | obj kvs => exact ih h

theorem holderSelectEntries_subset (ds : List Disclosure)
    (ckvs : List (String × Value)) (pkvs : List (String × Value))
    (hmem : ∀ p ∈ ckvs, ∀ prot, ∀ d ∈ holderSelect ds (Prod.snd p) prot, d ∈ ds) :
    ∀ d ∈ holderSelectEntries ds ckvs pkvs, d ∈ ds := by
  induction ckvs with
  | nil => intro d hd; cases hd
  | cons q qs ih =>
    obtain ⟨k, cv⟩ := q
    intro d hd
    rw [holderSelectEntries] at hd
    rcases List.mem_append.mp hd with hd | hd
    · cases hl : lookupEntry pkvs k with
      | some pv =>
        rw [hl] at hd
        exact hmem (k, cv) (by simp) pv d hd
      | none =>
        rw [hl] at hd
        cases hf : findKeyDisclosure ds (sdDigests pkvs) k with
        | some e =>
          rw [hf] at hd
          rcases List.mem_cons.mp hd with rfl | hd
          · exact findKeyDisclosure_mem hf
          · exact hmem (k, cv) (by simp) e.value d hd
        | none => rw [hf] at hd; cases hd
    · exact ih (fun p hp => hmem p (by simp [hp])) d hd

theorem holderSelectElems_subset (ds : List Disclosure) :
    ∀ (cxs : List Value) (pxs : List Value),
    (∀ v ∈ cxs, ∀ prot, ∀ d ∈ holderSelect ds v prot, d ∈ ds) →
    ∀ d ∈ holderSelectElems ds cxs pxs, d ∈ ds := by
  intro cxs
  induction cxs with
  | nil => intro pxs _ d hd; cases hd
  | cons cv crest ih =>
    intro pxs hmem d hd
    cases pxs with
    | nil => cases hd
    | cons pv prest =>
      rw [holderSelectElems] at hd
      rcases List.mem_append.mp hd with hd | hd
      · cases hm : markerDigest pv with
        | some g =>
          rw [hm] at hd
          dsimp only at hd
          cases hf : findByDigest ds g with
          | some e =>
            rw [hf] at hd
            rcases List.mem_cons.mp hd with rfl | hd
            · exact findByDigest_mem hf
            · exact hmem cv (by simp) e.value d hd
          | none => rw [hf] at hd; cases hd
        | none =>
          rw [hm] at hd
          exact hmem cv (by simp) pv d hd
      · exact ih prest (fun v hv => hmem v (by simp [hv])) d hd

/-- Every disclosure a holder selects comes from the issued token's
disclosure list. -/
theorem holderSelect_subset (ds : List Disclosure) :
    ∀ ctd prot, ∀ d ∈ holderSelect ds ctd prot, d ∈ ds := by
  intro ctd
  induction ctd using Value.rec_mem with
  | hnull => intro prot d hd; cases prot <;> simp [holderSelect] at hd
  | hbool b => intro prot d hd; cases prot <;> simp [holderSelect] at hd
  | hnum n => intro prot d hd; cases prot <;> simp [holderSelect] at hd
  | hstr s => intro prot d hd; cases prot <;> simp [holderSelect] at hd
  | harr xs ih =>
    intro prot d hd
    cases prot with
    | arr pxs =>
      rw [show holderSelect ds (.arr xs) (.arr pxs) =
        holderSelectElems ds xs pxs from by rw [holderSelect]] at hd
      exact holderSelectElems_subset ds xs pxs ih d hd
    | null => simp [holderSelect] at hd
    | bool _ => simp [holderSelect] at hd
    | num _ => simp [holderSelect] at hd
    | str _ => simp [holderSelect] at hd
    | obj _ => simp [holderSelect] at hd
  | hobj ckvs ih =>
    intro prot d hd
    cases prot with
    | obj pkvs =>
      rw [show holderSelect ds (.obj ckvs) (.obj pkvs) =
        holderSelectEntries ds ckvs pkvs from by rw [holderSelect]] at hd
      exact holderSelectEntries_subset ds ckvs pkvs ih d hd
    | null => simp [holderSelect] at hd
    | bool _ => simp [holderSelect] at hd
    | num _ => simp [holderSelect] at hd
    | str _ => simp [holderSelect] at hd
    | arr _ => simp [holderSelect] at hd

/-! ## Salt freshness and digest distinctness of the issuer transform -/

theorem digestStr_inj {m n : Nat} (h : digestStr m = digestStr n) : m = n := by
  have h2 := congrArg (fun s => s.data.length) h
  simpa [digestStr] using h2

theorem range'_glue (n a b : Nat) :
    List.range' n a ++ (n + a) :: List.range' (n + a + 1) b =
      List.range' n (a + 1 + b) := by
  have h1 : (n + a) :: List.range' (n + a + 1) b =
      List.range' (n + a) (b + 1) := by
    rw [List.range'_succ]
  rw [h1]
  have h2 := List.range'_append n a (b + 1) 1
  rw [one_mul] at h2
  rw [h2]
  congr 1
  omega

theorem range'_glue' (n a b X : Nat) (hX : X = n + a) :
    List.range' n a ++ X :: List.range' (X + 1) b =
      List.range' n (a + (b + 1)) := by
  subst hX
  rw [show a + (b + 1) = a + 1 + b from by omega]
  exact range'_glue n a b

theorem trEntries_counter (kvs : List (String × Value))
    (hmem : ∀ p ∈ kvs, ∀ n : Nat,
      (trAll (Prod.snd p) n).2.2 = n + (trAll (Prod.snd p) n).2.1.length ∧
      (trAll (Prod.snd p) n).2.1.map Disclosure.salt =
        List.range' n (trAll (Prod.snd p) n).2.1.length) :
    ∀ n : Nat, (trEntries kvs n).2.2 = n + (trEntries kvs n).2.1.length ∧
      (trEntries kvs n).2.1.map Disclosure.salt =
        List.range' n (trEntries kvs n).2.1.length := by
  induction kvs with
  | nil => intro n; simp [trEntries]
  | cons q qs ih =>
    intro n
    obtain ⟨k, v⟩ := q
    obtain ⟨hc, hs⟩ := hmem (k, v) (by simp) n
    simp only at hc hs
    obtain ⟨hc2, hs2⟩ := ih (fun p hp => hmem p (by simp [hp]))
      ((trAll v n).2.2 + 1)
    rw [trEntries]
    simp only [List.length_append, List.length_cons, List.map_append,
      List.map_cons]
    refine ⟨by omega, ?_⟩
    rw [hs, hs2]
    exact range'_glue' n (trAll v n).2.1.length _ _ hc

theorem trElems_counter (xs : List Value)
    (hmem : ∀ v ∈ xs, ∀ n : Nat,
      (trAll v n).2.2 = n + (trAll v n).2.1.length ∧
      (trAll v n).2.1.map Disclosure.salt =
        List.range' n (trAll v n).2.1.length) :
    ∀ n : Nat, (trElems xs n).2.2 = n + (trElems xs n).2.1.length ∧
      (trElems xs n).2.1.map Disclosure.salt =
        List.range' n (trElems xs n).2.1.length := by
  induction xs with
  | nil => intro n; simp [trElems]
  | cons v vs ih =>
    intro n
    obtain ⟨hc, hs⟩ := hmem v (by simp) n
    obtain ⟨hc2, hs2⟩ := ih (fun w hw => hmem w (by simp [hw]))
      ((trAll v n).2.2 + 1)
    rw [trElems]
    simp only [List.length_append, List.length_cons, List.map_append,
      List.map_cons]
    refine ⟨by omega, ?_⟩
    rw [hs, hs2]
    exact range'_glue' n (trAll v n).2.1.length _ _ hc

theorem trAll_counter : ∀ v : Value, ∀ n : Nat,
    (trAll v n).2.2 = n + (trAll v n).2.1.length ∧
    (trAll v n).2.1.map Disclosure.salt =
      List.range' n (trAll v n).2.1.length := by
  intro v
  induction v using Value.rec_mem with
  | hnull => intro n; simp [trAll]
  | hbool b => intro n; simp [trAll]
  | hnum m => intro n; simp [trAll]
  | hstr s => intro n; simp [trAll]
  | harr xs ih =>
    intro n
    rw [show trAll (.arr xs) n =
      ((.arr (trElems xs n).1), (trElems xs n).2.1, (trElems xs n).2.2) from by
      rw [trAll]]
    exact trElems_counter xs ih n
  | hobj kvs ih =>
    intro n
    rw [show trAll (.obj kvs) n =
      ((.obj [(sdKey, .arr (trEntries kvs n).1)]), (trEntries kvs n).2.1,
        (trEntries kvs n).2.2) from by rw [trAll]]
    exact trEntries_counter kvs ih n

theorem nodup_digests_of_salts {ds : List Disclosure}
    (h : (ds.map Disclosure.salt).Nodup) : (ds.map digestOf).Nodup := by
  have : ds.map digestOf = (ds.map Disclosure.salt).map digestStr := by
    rw [List.map_map]; rfl
  rw [this]
  exact h.map (fun a b hab => digestStr_inj hab)

theorem trAll_digests_nodup (v : Value) (n : Nat) :
    ((trAll v n).2.1.map digestOf).Nodup := by
  apply nodup_digests_of_salts
  rw [(trAll_counter v n).2]
  exact List.nodup_range' ..

theorem trEntries_digests_nodup (kvs : List (String × Value)) (n : Nat) :
    ((trEntries kvs n).2.1.map digestOf).Nodup := by
  apply nodup_digests_of_salts
  rw [(trEntries_counter kvs (fun p _ => trAll_counter p.2) n).2]
  exact List.nodup_range' ..

/-! ## Verifier reconstruction inverts the issuer transform -/

theorem findByDigest_of_mem {SEL : List Disclosure} {d : Disclosure}
    (hnd : (SEL.map digestOf).Nodup) (hd : d ∈ SEL) :
    findByDigest SEL (digestOf d) = some d := by
  induction SEL with
  | nil => cases hd
  | cons e es ih =>
    rw [List.map_cons, List.nodup_cons] at hnd
    by_cases he : digestOf e = digestOf d
    · rcases List.mem_cons.mp hd with rfl | hmem
      · rw [findByDigest, List.find?_cons_of_pos]
        simp
      · exact absurd (he ▸ List.mem_map_of_mem digestOf hmem) hnd.1
    · have hmem : d ∈ es := by
        rcases List.mem_cons.mp hd with rfl | hmem
        · exact absurd rfl he
        · exact hmem
      rw [findByDigest, List.find?_cons_of_neg _ (by simp [he])]
      exact ih hnd.2 hmem

theorem reconDigests_trEntries (kvs : List (String × Value))
    (hmem : ∀ p ∈ kvs, wfVal (Prod.snd p) = true →
      ∀ n SEL fuel, (List.map digestOf SEL).Nodup →
      (∀ d ∈ (trAll (Prod.snd p) n).2.1, d ∈ SEL) →
      vsize (Prod.snd p) ≤ fuel →
      reconVal SEL fuel (trAll (Prod.snd p) n).1 = some (Prod.snd p))
    (hwf : ∀ p ∈ kvs, wfVal (Prod.snd p) = true) :
    ∀ n SEL fuel, (List.map digestOf SEL).Nodup →
    (∀ d ∈ (trEntries kvs n).2.1, d ∈ SEL) →
    volsize kvs ≤ fuel →
    reconDigests SEL fuel (trEntries kvs n).1 = some kvs := by
  induction kvs with
  | nil => intro n SEL fuel _ _ _; simp [trEntries, reconDigests]
  | cons q qs ih =>
    intro n SEL fuel hnd hsub hfuel
    obtain ⟨k, v⟩ := q
    rw [trEntries] at hsub ⊢
    dsimp only at hsub ⊢
    have hdmem : (⟨(trAll v n).2.2, some k, (trAll v n).1⟩ : Disclosure) ∈ SEL :=
      hsub _ (by simp)
    have hfind := findByDigest_of_mem hnd hdmem
    rw [reconDigests]
    rw [show digestOf (⟨(trAll v n).2.2, some k, (trAll v n).1⟩ : Disclosure) =
      digestStr (trAll v n).2.2 from rfl] at hfind ⊢
    rw [hfind]
    dsimp only
    have hvol : volsize ((k, v) :: qs) = 1 + vsize v + volsize qs := by
      rw [volsize]
    have hrecv := hmem (k, v) (by simp) (hwf (k, v) (by simp)) n SEL fuel hnd
      (fun d hd => hsub d (by simp [hd])) (by show vsize v ≤ fuel; omega)
    simp only at hrecv
    rw [hrecv]
    rw [ih (fun p hp => hmem p (by simp [hp])) (fun p hp => hwf p (by simp [hp]))
      ((trAll v n).2.2 + 1) SEL fuel hnd
      (fun d hd => hsub d (by simp [hd])) (by omega)]

theorem reconElems_trElems (xs : List Value)
    (hmem : ∀ v ∈ xs, wfVal v = true →
      ∀ n SEL fuel, (List.map digestOf SEL).Nodup →
      (∀ d ∈ (trAll v n).2.1, d ∈ SEL) →
      vsize v ≤ fuel →
      reconVal SEL fuel (trAll v n).1 = some v)
    (hwf : ∀ v ∈ xs, wfVal v = true) :
    ∀ n SEL fuel, (List.map digestOf SEL).Nodup →
    (∀ d ∈ (trElems xs n).2.1, d ∈ SEL) →
    vlsize xs ≤ fuel →
    reconElems SEL fuel (trElems xs n).1 = some xs := by
  induction xs with
  | nil => intro n SEL fuel _ _ _; simp [trElems, reconElems]
  | cons v vs ih =>
    intro n SEL fuel hnd hsub hfuel
    rw [trElems] at hsub ⊢
    dsimp only at hsub ⊢
    have hdmem : (⟨(trAll v n).2.2, none, (trAll v n).1⟩ : Disclosure) ∈ SEL :=
      hsub _ (by simp)
    have hfind := findByDigest_of_mem hnd hdmem
    rw [reconElems]
    have hmark : markerDigest
        (.obj [(arrMarkerKey, .str (digestOf
          (⟨(trAll v n).2.2, none, (trAll v n).1⟩ : Disclosure)))]) =
        some (digestStr (trAll v n).2.2) := by
      simp [markerDigest]
      rfl
    rw [hmark]
    dsimp only
    rw [show digestOf (⟨(trAll v n).2.2, none, (trAll v n).1⟩ : Disclosure) =
      digestStr (trAll v n).2.2 from rfl] at hfind
    rw [hfind]
    dsimp only
    have hvl : vlsize (v :: vs) = 1 + vsize v + vlsize vs := by rw [vlsize]
    have hrecv := hmem v (by simp) (hwf v (by simp)) n SEL fuel hnd
      (fun d hd => hsub d (by simp [hd])) (by omega)
    rw [hrecv]
    rw [ih (fun w hw => hmem w (by simp [hw])) (fun w hw => hwf w (by simp [hw]))
      ((trAll v n).2.2 + 1) SEL fuel hnd
      (fun d hd => hsub d (by simp [hd])) (by omega)]

/-- Reconstruction with any duplicate-free disclosure set containing the
token's disclosures restores the original claims document. -/
theorem recon_trAll : ∀ v : Value, wfVal v = true →
    ∀ n SEL fuel, (List.map digestOf SEL).Nodup →
    (∀ d ∈ (trAll v n).2.1, d ∈ SEL) →
    vsize v ≤ fuel →
    reconVal SEL fuel (trAll v n).1 = some v := by
  intro v
  induction v using Value.rec_mem with
  | hnull =>
    intro _ n SEL fuel _ _ hfuel
    obtain ⟨g, rfl⟩ : ∃ g, fuel = g + 1 := ⟨fuel - 1, by rw [vsize] at hfuel; omega⟩
    simp [trAll, reconVal]
  | hbool b =>
    intro _ n SEL fuel _ _ hfuel
    obtain ⟨g, rfl⟩ : ∃ g, fuel = g + 1 := ⟨fuel - 1, by rw [vsize] at hfuel; omega⟩
    simp [trAll, reconVal]
  | hnum m =>
    intro _ n SEL fuel _ _ hfuel
    obtain ⟨g, rfl⟩ : ∃ g, fuel = g + 1 := ⟨fuel - 1, by rw [vsize] at hfuel; omega⟩
    simp [trAll, reconVal]
  | hstr s =>
    intro _ n SEL fuel _ _ hfuel
    obtain ⟨g, rfl⟩ : ∃ g, fuel = g + 1 := ⟨fuel - 1, by rw [vsize] at hfuel; omega⟩
    simp [trAll, reconVal]
  | harr xs ih =>
    intro hwf n SEL fuel hnd hsub hfuel
    obtain ⟨g, rfl⟩ : ∃ g, fuel = g + 1 := ⟨fuel - 1, by rw [vsize] at hfuel; omega⟩
    have hvs : vsize (Value.arr xs) = 1 + vlsize xs := by rw [vsize]
    rw [show trAll (.arr xs) n =
      ((.arr (trElems xs n).1), (trElems xs n).2.1, (trElems xs n).2.2) from by
      rw [trAll]] at hsub ⊢
    dsimp only at hsub ⊢
    rw [reconVal]
    rw [reconElems_trElems xs ih (wfVal_arr_mem hwf) n SEL g hnd hsub (by omega)]
  | hobj kvs ih =>
    intro hwf n SEL fuel hnd hsub hfuel
    obtain ⟨g, rfl⟩ : ∃ g, fuel = g + 1 := ⟨fuel - 1, by rw [vsize] at hfuel; omega⟩
    have hvs : vsize (Value.obj kvs) = 1 + volsize kvs := by rw [vsize]
    obtain ⟨hkeys, hwfm⟩ := wfVal_obj hwf
    rw [show trAll (.obj kvs) n =
      ((.obj [(sdKey, .arr (trEntries kvs n).1)]), (trEntries kvs n).2.1,
        (trEntries kvs n).2.2) from by rw [trAll]] at hsub ⊢
    dsimp only at hsub ⊢
    rw [reconVal]
    have hfilter : ([(sdKey, Value.arr (trEntries kvs n).1)].filter
        (fun p => p.1 ≠ sdKey && p.1 ≠ sdAlgKey)) = [] := by
      simp
    rw [hfilter]
    rw [show reconEntries SEL g [] = some [] from by rw [reconEntries]]
    have hsd : sdDigests [(sdKey, Value.arr (trEntries kvs n).1)] =
        (trEntries kvs n).1 := by
      rw [sdDigests]
      simp [lookupEntry]
    rw [hsd]
    rw [reconDigests_trEntries kvs ih hwfm n SEL g hnd hsub (by omega)]
    dsimp only
    rw [show entryKeys ([] : List (String × Value)) = [] from rfl]
    rw [List.nil_append, hkeys]
    simp

/-! ## Holder selection is complete on the issuer's own token -/

theorem noReserved_arr_mem {xs : List Value} (h : noReserved (.arr xs) = true) :
    ∀ v ∈ xs, noReserved v = true := by
  rw [noReserved] at h
  induction xs with
  | nil => intro v hv; cases hv
  | cons x xs ih =>
    rw [noReservedList, Bool.and_eq_true] at h
    intro v hv
    rcases List.mem_cons.mp hv with rfl | hv
    · exact h.1
    · exact ih h.2 v hv

theorem noReserved_obj {kvs : List (String × Value)}
    (h : noReserved (.obj kvs) = true) :
    (∀ p ∈ kvs, p.1 ≠ sdKey ∧ p.1 ≠ sdAlgKey) ∧
      ∀ p ∈ kvs, noReserved p.2 = true := by
  rw [noReserved, Bool.and_eq_true] at h
  constructor
  · intro p hp
    have := (List.all_eq_true.mp h.1) p hp
    simp only [Bool.and_eq_true, decide_eq_true_eq] at this
    exact this
  · have h2 := h.2
    clear h
    induction kvs with
    | nil => intro p hp; cases hp
    | cons q qs ih =>
      obtain ⟨k, v⟩ := q
      rw [noReservedEntries, Bool.and_eq_true] at h2
      intro p hp
      rcases List.mem_cons.mp hp with rfl | hp
      · exact h2.1
      · exact ih h2.2 p hp

theorem findKeyDisclosure_head {SEL : List Disclosure} {d : Disclosure}
    {k : String} (hfind : findByDigest SEL (digestOf d) = some d)
    (hd : d.key = some k) (digs : List Value) :
    findKeyDisclosure SEL (.str (digestOf d) :: digs) k = some d := by
  rw [findKeyDisclosure, hfind]
  dsimp only
  rw [if_pos hd]

theorem findKeyDisclosure_skip {SEL : List Disclosure} {d0 : Disclosure}
    {k0 k : String} (hfind : findByDigest SEL (digestOf d0) = some d0)
    (hk : k ≠ k0) (hd0 : d0.key = some k0) (digs : List Value) :
    findKeyDisclosure SEL (.str (digestOf d0) :: digs) k =
      findKeyDisclosure SEL digs k := by
  rw [findKeyDisclosure, hfind]
  dsimp only
  rw [if_neg (by simp [hd0]; exact fun e => hk e.symm)]

/-- A requested value whose protected counterpart is a scalar selects
nothing. -/
theorem holderSelect_scalar_prot (SEL : List Disclosure) (c : Value) :
    (∀ s, holderSelect SEL c (.str s) = []) ∧
    (∀ m : Int, holderSelect SEL c (.num m) = []) ∧
    (∀ b, holderSelect SEL c (.bool b) = []) ∧
    holderSelect SEL c .null = [] := by
  refine ⟨fun s => ?_, fun m => ?_, fun b => ?_, ?_⟩ <;>
    cases c <;> rw [holderSelect] <;> simp

theorem holderSelectElems_perm (SEL : List Disclosure)
    (hnd : (SEL.map digestOf).Nodup) :
    ∀ (xs cxs : List Value) (n : Nat),
    List.Forall₂ (fun c v => ∀ m : Nat,
      (∀ d ∈ (trAll v m).2.1, d ∈ SEL) →
      (holderSelect SEL c (trAll v m).1).Perm (trAll v m).2.1) cxs xs →
    (∀ d ∈ (trElems xs n).2.1, d ∈ SEL) →
    (holderSelectElems SEL cxs (trElems xs n).1).Perm (trElems xs n).2.1 := by
  intro xs
  induction xs with
  | nil =>
    intro cxs n hrel _
    cases hrel
    simp [trElems, holderSelectElems]
  | cons v vs ih =>
    intro cxs n hrel hsub
    cases hrel with
    | cons hc hrest =>
      rename_i c crest
      rw [trElems] at hsub ⊢
      dsimp only at hsub ⊢
      have hdmem : (⟨(trAll v n).2.2, none, (trAll v n).1⟩ : Disclosure) ∈ SEL :=
        hsub _ (by simp)
      have hfind := findByDigest_of_mem hnd hdmem
      rw [holderSelectElems]
      have hmark : markerDigest
          (.obj [(arrMarkerKey, .str (digestOf
            (⟨(trAll v n).2.2, none, (trAll v n).1⟩ : Disclosure)))]) =
          some (digestStr (trAll v n).2.2) := by
        simp [markerDigest]
        rfl
      rw [hmark]
      dsimp only
      rw [show digestStr (trAll v n).2.2 = digestOf
        (⟨(trAll v n).2.2, none, (trAll v n).1⟩ : Disclosure) from rfl, hfind]
      dsimp only
      have hperm1 := hc n (fun d hd => hsub d (by simp [hd]))
      have hperm2 := ih crest ((trAll v n).2.2 + 1) hrest
        (fun d hd => hsub d (by simp [hd]))
      refine List.Perm.trans
        (List.Perm.append (List.Perm.cons _ hperm1) hperm2) ?_
      rw [List.cons_append]
      exact List.perm_middle.symm

theorem holderSelectEntries_perm (SEL : List Disclosure)
    (hnd : (SEL.map digestOf).Nodup) :
    ∀ (kvs ckvs : List (String × Value)) (n : Nat)
      (pkvs : List (String × Value)),
    List.Forall₂ (fun c p => c.1 = p.1 ∧ ∀ m : Nat,
      (∀ d ∈ (trAll (Prod.snd p) m).2.1, d ∈ SEL) →
      (holderSelect SEL c.2 (trAll (Prod.snd p) m).1).Perm
        (trAll (Prod.snd p) m).2.1) ckvs kvs →
    (∀ d ∈ (trEntries kvs n).2.1, d ∈ SEL) →
    distinctStrs (entryKeys kvs) = true →
    (∀ p ∈ kvs, lookupEntry pkvs p.1 = none) →
    (∀ k, k ∈ entryKeys kvs → findKeyDisclosure SEL (sdDigests pkvs) k =
      findKeyDisclosure SEL (trEntries kvs n).1 k) →
    (holderSelectEntries SEL ckvs pkvs).Perm (trEntries kvs n).2.1 := by
  intro kvs
  induction kvs with
  | nil =>
    intro ckvs n pkvs hrel _ _ _ _
    cases hrel
    simp [trEntries, holderSelectEntries]
  | cons q qs ih =>
    intro ckvs n pkvs hrel hsub hkeys hlook hscan
    obtain ⟨k, v⟩ := q
    cases hrel with
    | cons hc hrest =>
      rename_i c crest
      obtain ⟨hckey, hcsel⟩ := hc
      obtain ⟨kc, cv⟩ := c
      simp only at hckey hcsel
      rw [trEntries] at hsub ⊢
      dsimp only at hsub ⊢
      have hdmem : (⟨(trAll v n).2.2, some k, (trAll v n).1⟩ : Disclosure) ∈
          SEL := hsub _ (by simp)
      have hfind := findByDigest_of_mem hnd hdmem
      have hknotin : k ∉ entryKeys qs ∧ distinctStrs (entryKeys qs) = true := by
        have := hkeys
        rw [show entryKeys ((k, v) :: qs) = k :: entryKeys qs from rfl] at this
        exact distinctStrs_cons.mp this
      rw [holderSelectEntries]
      rw [hckey]
      rw [hlook (k, v) (by simp)]
      have hscank := hscan k (by simp [entryKeys])
      rw [trEntries] at hscank
      dsimp only at hscank
      rw [hscank, findKeyDisclosure_head hfind rfl]
      have hperm1 := hcsel n (fun d hd => hsub d (by simp [hd]))
      have hperm2 := ih crest ((trAll v n).2.2 + 1) pkvs hrest
        (fun d hd => hsub d (by simp [hd])) hknotin.2
        (fun p hp => hlook p (by simp [hp]))
        (fun k' hk' => by
          have hne : k' ≠ k := fun e => hknotin.1 (e ▸ hk')
          rw [hscan k' (by
            rw [show entryKeys ((k, v) :: qs) = k :: entryKeys qs from rfl]
            exact List.mem_cons_of_mem _ hk'), trEntries]
          dsimp only
          rw [findKeyDisclosure_skip hfind hne rfl])
      refine List.Perm.trans
        (List.Perm.append (List.Perm.cons _ hperm1) hperm2) ?_
      rw [List.cons_append]
      exact List.perm_middle.symm

/-- Requesting exactly the issued claims document selects exactly the
issued disclosures (up to order). -/
theorem select_trAll : ∀ v : Value, wfVal v = true → noReserved v = true →
    ∀ n SEL, (SEL.map digestOf).Nodup →
    (∀ d ∈ (trAll v n).2.1, d ∈ SEL) →
    (holderSelect SEL v (trAll v n).1).Perm (trAll v n).2.1 := by
  intro v
  induction v using Value.rec_mem with
  | hnull => intro _ _ n SEL _ _; simp [trAll, holderSelect]
  | hbool b => intro _ _ n SEL _ _; simp [trAll, holderSelect]
  | hnum m => intro _ _ n SEL _ _; simp [trAll, holderSelect]
  | hstr s => intro _ _ n SEL _ _; simp [trAll, holderSelect]
  | harr xs ih =>
    intro hwf hres n SEL hnd hsub
    rw [show trAll (.arr xs) n =
      ((.arr (trElems xs n).1), (trElems xs n).2.1, (trElems xs n).2.2) from by
      rw [trAll]] at hsub ⊢
    dsimp only at hsub ⊢
    rw [show holderSelect SEL (.arr xs) (.arr (trElems xs n).1) =
      holderSelectElems SEL xs (trElems xs n).1 from by rw [holderSelect]]
    refine holderSelectElems_perm SEL hnd xs xs n ?_ hsub
    rw [List.forall₂_same]
    intro w hw m hsubm
    exact ih w hw (wfVal_arr_mem hwf w hw) (noReserved_arr_mem hres w hw)
      m SEL hnd hsubm
  | hobj kvs ih =>
    intro hwf hres n SEL hnd hsub
    obtain ⟨hkeys, hwfm⟩ := wfVal_obj hwf
    obtain ⟨hresk, hresm⟩ := noReserved_obj hres
    rw [show trAll (.obj kvs) n =
      ((.obj [(sdKey, .arr (trEntries kvs n).1)]), (trEntries kvs n).2.1,
        (trEntries kvs n).2.2) from by rw [trAll]] at hsub ⊢
    dsimp only at hsub ⊢
    rw [show holderSelect SEL (.obj kvs)
        (.obj [(sdKey, .arr (trEntries kvs n).1)]) =
      holderSelectEntries SEL kvs [(sdKey, .arr (trEntries kvs n).1)] from by
      rw [holderSelect]]
    refine holderSelectEntries_perm SEL hnd kvs kvs n _ ?_ hsub hkeys ?_ ?_
    · rw [List.forall₂_same]
      intro p hp
      refine ⟨rfl, fun m hsubm => ?_⟩
      exact ih p hp (hwfm p hp) (hresm p hp) m SEL hnd hsubm
    · intro p hp
      rw [lookupEntry, if_neg (fun e => (hresk p hp).1 e.symm), lookupEntry]
    · intro k _
      rw [show sdDigests [(sdKey, Value.arr (trEntries kvs n).1)] =
        (trEntries kvs n).1 from by rw [sdDigests]; simp [lookupEntry]]

/-! ## The complete round trip (C1) -/

theorem topConvertible_obj {kvs : List (String × Value)}
    (h : topConvertible (.obj kvs) = true) :
    ∀ p ∈ kvs, (∃ s, Prod.snd p = .str s) ∨ (∃ m, Prod.snd p = .num m) ∨
      (∃ o, Prod.snd p = .obj o) := by
  rw [topConvertible] at h
  intro p hp
  have := (List.all_eq_true.mp h) p hp
  rcases hv : p.2 with _ | b | m | s | xs | o <;> rw [hv] at this
  · cases this
  · cases this
  · exact Or.inr (Or.inl ⟨m, rfl⟩)
  · exact Or.inl ⟨s, rfl⟩
  · cases this
  · exact Or.inr (Or.inr ⟨o, rfl⟩)

theorem convert_ok (kvs : List (String × Value))
    (h : ∀ p ∈ kvs, (∃ s, Prod.snd p = .str s) ∨ (∃ m, Prod.snd p = .num m) ∨
      (∃ o, Prod.snd p = .obj o)) :
    convert kvs = .ok (kvs.map (fun p => (p.1, strForm p.2))) := by
  induction kvs with
  | nil => rfl
  | cons q qs ih =>
    obtain ⟨k, v⟩ := q
    have ihh := ih (fun p hp => h p (by simp [hp]))
    rcases h (k, v) (by simp) with ⟨s, hv⟩ | ⟨m, hv⟩ | ⟨o, hv⟩ <;>
      simp only at hv <;> subst hv
    · rw [convert, ihh]
      simp [strForm]
    · rw [convert, ihh]
      simp [strForm, printJson]
    · rw [convert, ihh]
      simp only [List.map_cons, strForm]

theorem printJson_num (j : Int) : printJson (.num j) = String.mk (intChars j) := by
  rw [printJson, printVal]

theorem coerce_num (j : Int) :
    coerceClaimStr (String.mk (intChars j)) = .str (String.mk (intChars j)) := by
  have hp : parseJson (String.mk (intChars j)) = some (.num j) := by
    rw [← printJson_num]
    exact parseJson_printJson _ (by rfl)
  rw [coerceClaimStr, hp]
  rfl

theorem coerce_obj (o : List (String × Value)) (hwf : wfVal (.obj o) = true) :
    coerceClaimStr (printJson (.obj o)) = .obj o := by
  rw [coerceClaimStr, parseJson_printJson _ hwf]
  rfl

/-- Reconstruction of the top-level token (which carries the extra
`_sd_alg` entry). -/
theorem recon_top (kvs : List (String × Value)) (SEL : List Disclosure)
    (g : Nat) (hnd : (SEL.map digestOf).Nodup)
    (hsub : ∀ d ∈ (trEntries kvs 0).2.1, d ∈ SEL)
    (hkeys : distinctStrs (entryKeys kvs) = true)
    (hwfm : ∀ p ∈ kvs, wfVal (Prod.snd p) = true)
    (hfuel : volsize kvs ≤ g) :
    reconVal SEL (g + 1) (.obj [(sdKey, .arr (trEntries kvs 0).1),
      (sdAlgKey, .str "sha-256")]) = some (.obj kvs) := by
  rw [reconVal]
  have hfilter : ([(sdKey, Value.arr (trEntries kvs 0).1),
      (sdAlgKey, Value.str "sha-256")].filter
      (fun p => p.1 ≠ sdKey && p.1 ≠ sdAlgKey)) = [] := by
    simp [sdKey, sdAlgKey]
  rw [hfilter]
  rw [show reconEntries SEL g [] = some [] from by rw [reconEntries]]
  have hsd : sdDigests [(sdKey, Value.arr (trEntries kvs 0).1),
      (sdAlgKey, Value.str "sha-256")] = (trEntries kvs 0).1 := by
    rw [sdDigests]
    simp [lookupEntry]
  rw [hsd]
  rw [reconDigests_trEntries kvs (fun p _ hw => recon_trAll p.2 hw) hwfm 0 SEL g
    hnd hsub hfuel]
  dsimp only
  rw [show entryKeys ([] : List (String × Value)) = [] from rfl]
  rw [List.nil_append, hkeys]
  simp

theorem forall₂_map_self {α β : Type} {R : β × α → β × α → Prop}
    (f : β × α → β × α) (l : List (β × α))
    (h : ∀ p ∈ l, R (f p) p) : List.Forall₂ R (l.map f) l := by
  induction l with
  | nil => exact List.Forall₂.nil
  | cons q qs ih =>
    exact List.Forall₂.cons (h q (by simp)) (ih (fun p hp => h p (by simp [hp])))

/-- `verifyReconstruct` with distinct digests is plain reconstruction. -/
theorem verifyReconstruct_eq (t : Value) (ds : List Disclosure) (fuel : Nat)
    (h : distinctStrs (ds.map digestOf) = true) :
    verifyReconstruct t ds fuel = reconVal ds fuel t := by
  rw [verifyReconstruct, h]
  simp

/-- The full round trip: a well-formed claims object avoiding the
reserved claim names, whose top-level values survive `convert`, comes
back unchanged from issue → present → verify. -/
theorem roundTrip_eq (C : Value) (hwf : wfVal C = true)
    (hres : noReserved C = true) (htop : topConvertible C = true) :
    roundTrip C = .ok C := by
  obtain ⟨kvs, rfl⟩ : ∃ kvs, C = .obj kvs := by
    cases C
    case obj kvs => exact ⟨kvs, rfl⟩
    all_goals simp [topConvertible] at htop
  obtain ⟨hkeys, hwfm⟩ := wfVal_obj hwf
  obtain ⟨hresk, hresm⟩ := noReserved_obj hres
  have htopm := topConvertible_obj htop
  -- the issued token
  rw [roundTrip]
  rw [show issueAllLevels (.obj kvs) =
    .ok (.obj [(sdKey, .arr (trEntries kvs 0).1), (sdAlgKey, .str "sha-256")],
      (trEntries kvs 0).2.1) from by rw [issueAllLevels]]
  dsimp only
  -- the wrapper's pre-processing of the printed claims
  have hcpp : createPresentationPre (printJson (.obj kvs)) =
      .ok (kvs.map (fun p => (p.1, coerceClaimStr (strForm p.2)))) := by
    rw [createPresentationPre, parseJson_printJson _ hwf]
    dsimp only
    rw [convert_ok kvs htopm]
    dsimp only
    rw [List.map_map]
    rfl
  rw [hcpp]
  dsimp only
  -- the holder's selection is the issued disclosure list up to order
  have hnd : (((trEntries kvs 0).2.1).map digestOf).Nodup :=
    trEntries_digests_nodup kvs 0
  have hperm : (holderSelect (trEntries kvs 0).2.1
      (.obj (kvs.map (fun p => (p.1, coerceClaimStr (strForm p.2)))))
      (.obj [(sdKey, .arr (trEntries kvs 0).1),
        (sdAlgKey, .str "sha-256")])).Perm (trEntries kvs 0).2.1 := by
    rw [show holderSelect (trEntries kvs 0).2.1
        (.obj (kvs.map (fun p => (p.1, coerceClaimStr (strForm p.2)))))
        (.obj [(sdKey, .arr (trEntries kvs 0).1), (sdAlgKey, .str "sha-256")]) =
      holderSelectEntries (trEntries kvs 0).2.1
        (kvs.map (fun p => (p.1, coerceClaimStr (strForm p.2))))
        [(sdKey, .arr (trEntries kvs 0).1), (sdAlgKey, .str "sha-256")] from by
      rw [holderSelect]]
    refine holderSelectEntries_perm _ hnd kvs _ 0 _ ?_ (fun d hd => hd) hkeys
      ?_ ?_
    · refine forall₂_map_self _ kvs ?_
      intro p hp
      refine ⟨rfl, fun m hsubm => ?_⟩
      rcases htopm p hp with ⟨s, hv⟩ | ⟨j, hv⟩ | ⟨o, hv⟩ <;> rw [hv] at hsubm ⊢
      · rw [show trAll (.str s) m = (.str s, [], m) from by rw [trAll] <;> simp]
        dsimp only
        rw [(holderSelect_scalar_prot _ _).1 s]
      · rw [show trAll (.num j) m = (.num j, [], m) from by rw [trAll] <;> simp]
        dsimp only
        rw [(holderSelect_scalar_prot _ _).2.1 j]
      · have hwfo := hwfm p hp
        rw [hv] at hwfo
        have hreso := hresm p hp
        rw [hv] at hreso
        rw [show strForm (.obj o) = printJson (.obj o) from rfl,
          coerce_obj o hwfo]
        exact select_trAll (.obj o) hwfo hreso m _ hnd hsubm
    · intro p hp
      rw [lookupEntry, if_neg (fun e => (hresk p hp).1 e.symm),
        lookupEntry, if_neg (fun e => (hresk p hp).2 e.symm), lookupEntry]
    · intro k _
      rw [show sdDigests [(sdKey, Value.arr (trEntries kvs 0).1),
        (sdAlgKey, Value.str "sha-256")] = (trEntries kvs 0).1 from by
        rw [sdDigests]; simp [lookupEntry]]
  -- the verifier succeeds on the selection
  have hndS := ((hperm.map digestOf).nodup_iff).mpr hnd
  have hdist := (distinctStrs_iff_nodup).mpr hndS
  rw [verifyReconstruct_eq _ _ _ hdist]
  rw [show vsize (Value.obj kvs) = volsize kvs + 1 from by rw [vsize]; omega]
  rw [recon_top kvs _ (volsize kvs + 1) hndS
    (fun d hd => hperm.mem_iff.mpr hd) hkeys hwfm (by omega)]

/-! ## Concrete runs of the parser

The parser is compiled by well-founded recursion, so concrete runs are
evaluated with its equations rather than by kernel reduction. -/

theorem parse_fact_notjson : parseJson "not json" = none := by
  rw [parseJson]
  simp [parseVal, parseNum, parseNatNum, takeDigits, digitVal?, digitsToNat,
    skipWs, isWsChar]

theorem parse_fact_num12 : parseJson "12" = some (.num 12) := by
  rw [parseJson]
  simp [parseVal, parseNum, parseNatNum, takeDigits, digitVal?, digitsToNat,
    skipWs, isWsChar, noDigitHead]

theorem parse_fact_num7 : parseJson "7" = some (.num 7) := by
  rw [parseJson]
  simp [parseVal, parseNum, parseNatNum, takeDigits, digitVal?, digitsToNat,
    skipWs, isWsChar, noDigitHead]

theorem parse_fact_true : parseJson "true" = some (.bool true) := by
  rw [parseJson]
  simp [parseVal, skipWs, isWsChar]

theorem parse_fact_null : parseJson "null" = some .null := by
  rw [parseJson]
  simp [parseVal, skipWs, isWsChar]

theorem parse_fact_arr12 : parseJson "[1,2]" =
    some (.arr [.num 1, .num 2]) := by
  rw [parseJson, show ("[1,2]" : String).length = 5 from rfl]
  simp [parseVal, parseElems, parseNum, parseNatNum, takeDigits, digitVal?,
    digitsToNat, skipWs, isWsChar, noDigitHead]

theorem parse_fact_obj_a1 : parseJson "\x7b\"a\":1\x7d" =
    some (.obj [("a", .num 1)]) := by
  rw [parseJson, show ("\x7b\"a\":1\x7d" : String).length = 7 from rfl]
  simp [parseVal, parseEntries, parseStrChars, parseNum, parseNatNum,
    takeDigits, digitVal?, digitsToNat, skipWs, isWsChar, dedupCons,
    lookupEntry]

theorem parse_fact_obj_a_true : parseJson "\x7b\"a\":true\x7d" =
    some (.obj [("a", .bool true)]) := by
  rw [parseJson, show ("\x7b\"a\":true\x7d" : String).length = 10 from rfl]
  simp [parseVal, parseEntries, parseStrChars, skipWs, isWsChar, dedupCons,
    lookupEntry]

theorem parse_fact_obj_a_str12 : parseJson "\x7b\"a\":\"12\"\x7d" =
    some (.obj [("a", .str "12")]) := by
  rw [parseJson, show ("\x7b\"a\":\"12\"\x7d" : String).length = 10 from rfl]
  simp [parseVal, parseEntries, parseStrChars, skipWs, isWsChar, dedupCons,
    lookupEntry]

theorem parse_fact_jwk : parseJson "\x7b\"kty\":\"EC\",\"x\":\"1\"\x7d" =
    some (.obj [("kty", .str "EC"), ("x", .str "1")]) := by
  rw [parseJson,
    show ("\x7b\"kty\":\"EC\",\"x\":\"1\"\x7d" : String).length = 20 from rfl]
  simp [parseVal, parseEntries, parseStrChars, skipWs, isWsChar, dedupCons,
    lookupEntry]

/-! ## The re-parse coercion of converted claim strings (C4, C9) -/

theorem coerce_of_parse_obj {s : String} {o : List (String × Value)}
    (h : parseJson s = some (.obj o)) : coerceClaimStr s = .obj o := by
  rw [coerceClaimStr, h]
  rfl

theorem coerce_of_parse_arr {s : String} {xs : List Value}
    (h : parseJson s = some (.arr xs)) : coerceClaimStr s = .arr xs := by
  rw [coerceClaimStr, h]
  rfl

theorem coerce_of_parse_num {s : String} {n : Int}
    (h : parseJson s = some (.num n)) : coerceClaimStr s = .str s := by
  rw [coerceClaimStr, h]
  rfl

theorem coerce_of_parse_bool {s : String} {b : Bool}
    (h : parseJson s = some (.bool b)) : coerceClaimStr s = .bool b := by
  rw [coerceClaimStr, h]
  rfl

theorem coerce_of_parse_null {s : String} (h : parseJson s = some .null) :
    coerceClaimStr s = .null := by
  rw [coerceClaimStr, h]
  rfl

/-! ## `convert` on good and bad entries (C4, C5) -/

theorem convert_mem_str {kvs : List (String × Value)}
    {hm : List (String × String)} (h : convert kvs = .ok hm) {k s : String}
    (hmem : (k, Value.str s) ∈ kvs) : (k, s) ∈ hm := by
  induction kvs generalizing hm with
  | nil => cases hmem
  | cons q qs ih =>
    obtain ⟨k', v⟩ := q
    rcases List.mem_cons.mp hmem with heq | hmem'
    · cases heq
      rw [convert] at h
      cases hc : convert qs with
      | ok hm' =>
        rw [hc] at h
        dsimp only at h
        cases h
        exact List.mem_cons_self _ _
      | err e => rw [hc] at h; cases h
      | aborted m => rw [hc] at h; cases h
    · cases v with
      | str s' =>
        rw [convert] at h
        cases hc : convert qs with
        | ok hm' =>
          rw [hc] at h
          dsimp only at h
          cases h
          exact List.mem_cons_of_mem _ (ih hc hmem')
        | err e => rw [hc] at h; cases h
        | aborted m => rw [hc] at h; cases h
      | num n =>
        rw [convert] at h
        cases hc : convert qs with
        | ok hm' =>
          rw [hc] at h
          dsimp only at h
          cases h
          exact List.mem_cons_of_mem _ (ih hc hmem')
        | err e => rw [hc] at h; cases h
        | aborted m => rw [hc] at h; cases h
      | obj o =>
        rw [convert] at h
        cases hc : convert qs with
        | ok hm' =>
          rw [hc] at h
          dsimp only at h
          cases h
          exact List.mem_cons_of_mem _ (ih hc hmem')
        | err e => rw [hc] at h; cases h
        | aborted m => rw [hc] at h; cases h
      | null => cases h
      | bool b => cases h
      | arr xs => cases h

theorem convert_aborted_of_bad {kvs : List (String × Value)} (k : String)
    (h : (k, Value.null) ∈ kvs ∨ (∃ b, (k, Value.bool b) ∈ kvs) ∨
      (∃ xs, (k, Value.arr xs) ∈ kvs)) :
    convert kvs = .aborted "Should never be an error here" := by
  induction kvs with
  | nil => rcases h with hmem | ⟨b, hmem⟩ | ⟨xs, hmem⟩ <;> cases hmem
  | cons q qs ih =>
    obtain ⟨k', v⟩ := q
    rcases h with hmem | ⟨b, hmem⟩ | ⟨xs, hmem⟩
    · rcases List.mem_cons.mp hmem with heq | htl
      · cases heq
        rfl
      · cases v <;> first | rfl | rw [convert, ih (Or.inl htl)]
    · rcases List.mem_cons.mp hmem with heq | htl
      · cases heq
        rfl
      · cases v <;> first | rfl |
          rw [convert, ih (Or.inr (Or.inl ⟨b, htl⟩))]
    · rcases List.mem_cons.mp hmem with heq | htl
      · cases heq
        rfl
      · cases v <;> first | rfl |
          rw [convert, ih (Or.inr (Or.inr ⟨xs, htl⟩))]

/-! ## The JWK decode–encode round trip (C10) -/

theorem jwkParamOf_fst {p : String × Value} {q : String × String}
    (h : jwkParamOf p = some q) : q.1 = p.1 := by
  rw [jwkParamOf] at h
  split at h
  · cases h
  · rcases hv : p.2 with _ | b | n | s | xs | o <;> rw [hv] at h <;>
      cases h <;> rfl

theorem jwkParamOf_ne_kty {p : String × Value} {q : String × String}
    (h : jwkParamOf p = some q) : q.1 ≠ "kty" := by
  have hq := jwkParamOf_fst h
  rw [jwkParamOf] at h
  split at h
  · cases h
  · rename_i hne
    rw [hq]
    exact hne

theorem filterMap_keys_sublist (f : String × Value → Option (String × String))
    (hf : ∀ p q, f p = some q → q.1 = p.1) (l : List (String × Value)) :
    ((l.filterMap f).map Prod.fst).Sublist (l.map Prod.fst) := by
  induction l with
  | nil => simp
  | cons p ps ih =>
    rw [List.filterMap_cons]
    cases hfp : f p with
    | none =>
      rw [List.map_cons]
      exact ih.cons _
    | some q =>
      rw [List.map_cons, List.map_cons, hf p q hfp]
      exact ih.cons₂ _

theorem jwk_params_facts {kvs : List (String × Value)}
    (hnd : (kvs.map Prod.fst).Nodup) :
    ((kvs.filterMap jwkParamOf).map Prod.fst).Nodup ∧
      "kty" ∉ (kvs.filterMap jwkParamOf).map Prod.fst := by
  constructor
  · exact (filterMap_keys_sublist jwkParamOf
      (fun p q hpq => jwkParamOf_fst hpq) kvs).nodup hnd
  · intro hmem
    rw [List.mem_map] at hmem
    obtain ⟨q, hq, hfst⟩ := hmem
    rw [List.mem_filterMap] at hq
    obtain ⟨p, hp, hf⟩ := hq
    exact jwkParamOf_ne_kty hf hfst

theorem jwkToValue_wf (j : Jwk) (hnd : (j.params.map Prod.fst).Nodup)
    (hnk : "kty" ∉ j.params.map Prod.fst) : wfVal (jwkToValue j) = true := by
  rw [jwkToValue]
  apply wfVal_obj_of
  · have hkeys : entryKeys (("kty", Value.str j.kty) ::
        j.params.map (fun p => (p.1, Value.str p.2))) =
        "kty" :: j.params.map Prod.fst := by
      rw [entryKeys, List.map_cons, List.map_map]
      rfl
    rw [hkeys, distinctStrs_iff_nodup, List.nodup_cons]
    exact ⟨hnk, hnd⟩
  · intro p hp
    rcases List.mem_cons.mp hp with heq | htl
    · rw [heq]
      rfl
    · rw [List.mem_map] at htl
      obtain ⟨q, -, hq⟩ := htl
      rw [← hq]
      rfl

theorem filterMap_jwkParamOf_map (params : List (String × String))
    (hnk : "kty" ∉ params.map Prod.fst) :
    (params.map (fun p => (p.1, Value.str p.2))).filterMap jwkParamOf =
      params := by
  induction params with
  | nil => rfl
  | cons q qs ih =>
    have h1 : q.1 ≠ "kty" := by
      intro he
      exact hnk (by rw [List.map_cons, he]; exact List.mem_cons_self _ _)
    have h2 : "kty" ∉ qs.map Prod.fst := by
      intro hm
      exact hnk (by rw [List.map_cons]; exact List.mem_cons_of_mem _ hm)
    rw [List.map_cons, List.filterMap_cons,
      show jwkParamOf (q.1, Value.str q.2) = some (q.1, q.2) from by
        rw [jwkParamOf, if_neg h1],
      ih h2]

theorem jwkFromValue_roundtrip (j : Jwk) (hkty : j.kty ∈ jwkKtys)
    (hnk : "kty" ∉ j.params.map Prod.fst) :
    jwkFromValue (jwkToValue j) = some j := by
  rw [jwkToValue, jwkFromValue,
    show lookupEntry (("kty", Value.str j.kty) ::
        j.params.map (fun p => (p.1, Value.str p.2))) "kty" =
      some (.str j.kty) from by rw [lookupEntry]; simp]
  dsimp only
  rw [if_pos hkty, List.filterMap_cons,
    show jwkParamOf ("kty", Value.str j.kty) = none from by
      rw [jwkParamOf, if_pos rfl],
    filterMap_jwkParamOf_map j.params hnk]

theorem JwkValue_new_props {s : String} {j : Jwk}
    (h : JwkValue.new s = .ok j) :
    j.kty ∈ jwkKtys ∧ (j.params.map Prod.fst).Nodup ∧
      "kty" ∉ j.params.map Prod.fst := by
  rw [JwkValue.new] at h
  cases hp : parseJson s with
  | none => rw [hp] at h; cases h
  | some v =>
    rw [hp] at h
    dsimp only at h
    have hwfv := parseJson_wf hp
    cases v with
    | obj kvs =>
      rw [jwkFromValue] at h
      cases hl : lookupEntry kvs "kty" with
      | none => rw [hl] at h; cases h
      | some w =>
        cases w with
        | str t =>
          rw [hl] at h
          dsimp only at h
          by_cases hk : t ∈ jwkKtys
          · rw [if_pos hk] at h
            dsimp only at h
            cases h
            obtain ⟨hkeys, -⟩ := wfVal_obj hwfv
            obtain ⟨h1, h2⟩ := jwk_params_facts (distinctStrs_iff_nodup.mp hkeys)
            exact ⟨hk, h1, h2⟩
          · rw [if_neg hk] at h
            cases h
        | null => rw [hl] at h; cases h
        | bool b => rw [hl] at h; cases h
        | num n => rw [hl] at h; cases h
        | arr xs => rw [hl] at h; cases h
        | obj o => rw [hl] at h; cases h
    | null => cases h
    | bool b => cases h
    | num n => cases h
    | str t => cases h
    | arr xs => cases h

/-- `create_presentation`'s pre-processing of one concrete claims object
with a numeric-looking string value. -/
theorem cpp_fact_a_str12 : createPresentationPre "\x7b\"a\":\"12\"\x7d" =
    .ok [("a", Value.str "12")] := by
  rw [createPresentationPre, parse_fact_obj_a_str12]
  dsimp only
  rw [show convert [("a", Value.str "12")] = .ok [("a", "12")] from rfl]
  dsimp only
  simp only [List.map_cons, List.map_nil]
  rw [coerce_of_parse_num parse_fact_num12]

/-- `JwkValue::new` on one concrete JWK document. -/
theorem jwk_new_fact : JwkValue.new "\x7b\"kty\":\"EC\",\"x\":\"1\"\x7d" =
    .ok ⟨"EC", [("x", "1")]⟩ := by
  rw [JwkValue.new, parse_fact_jwk]
  rfl

/-! ## The claims -/

/-- C1 (corrected): issuing a claims object `C` with `AllLevels`, having
the holder create a presentation disclosing the same subset, and
verifying yields claims structurally equal to `C` — provided every object
of `C` has distinct keys, `C` avoids the reserved claim names `_sd` and
`_sd_alg`, and every top-level value of `C` is a string, number or object
(the wrapper's `convert` aborts on top-level booleans, nulls and arrays,
so the spec's unconditional round trip fails there). -/
theorem C1_issue_present_verify_round_trip (C : Value)
    (hwf : wfVal C = true) (hres : noReserved C = true)
    (htop : topConvertible C = true) : roundTrip C = .ok C :=
  roundTrip_eq C hwf hres htop

theorem C1_round_trip_witness :
    wfVal (.obj [("name", .str "bob"), ("age", .num 42),
        ("addr", .obj [("city", .str "x")])]) = true ∧
      noReserved (.obj [("name", .str "bob"), ("age", .num 42),
        ("addr", .obj [("city", .str "x")])]) = true ∧
      topConvertible (.obj [("name", .str "bob"), ("age", .num 42),
        ("addr", .obj [("city", .str "x")])]) = true ∧
      roundTrip (.obj [("name", .str "bob"), ("age", .num 42),
          ("addr", .obj [("city", .str "x")])]) =
        .ok (.obj [("name", .str "bob"), ("age", .num 42),
          ("addr", .obj [("city", .str "x")])]) :=
  ⟨by decide, by decide, by decide,
    C1_issue_present_verify_round_trip _ (by decide) (by decide) (by decide)⟩

theorem C1_round_trip_bool_claim_abort :
    roundTrip (.obj [("flag", .bool true)]) =
      .aborted "Should never be an error here" := by
  rw [roundTrip, show issueAllLevels (.obj [("flag", .bool true)]) =
    .ok (.obj [(sdKey, .arr (trEntries [("flag", .bool true)] 0).1),
        (sdAlgKey, .str "sha-256")],
      (trEntries [("flag", .bool true)] 0).2.1) from by rw [issueAllLevels]]
  dsimp only
  rw [createPresentationPre, parseJson_printJson _ (by decide)]
  rfl

/-- C2 (confirmed): for a verifier whose `verified_claims` is a
well-formed object and a candidate claims string parsing to an object,
`verify` returns true exactly when the two objects are structurally equal
in the spec's order-independent sense (same key set, equal value at every
key). -/
theorem C2_verify_iff_structural_eq (wm um : List (String × Value))
    (s : String) (hwf : wfVal (.obj wm) = true)
    (hs : parseJson s = some (.obj um)) :
    (verify (.obj wm) s = .ok true ↔
      specStructEq (.obj um) (.obj wm) = true) := by
  have hwfu : wfVal (.obj um) = true := parseJson_wf hs
  rw [verify, hs]
  dsimp only
  rw [getVerifiedClaims, parseJson_printJson _ hwf]
  dsimp only
  rw [show (um.length == wm.length && serdeEqAll um wm) =
      serdeEqVal (.obj um) (.obj wm) from by rw [serdeEqVal]]
  simp only [RunResult.ok.injEq]
  exact serdeEq_iff_specEq _ hwfu _ hwf

theorem C2_verify_witness :
    wfVal (.obj [("a", Value.num 1)]) = true ∧
      parseJson "\x7b\"a\":1\x7d" = some (.obj [("a", Value.num 1)]) ∧
      (verify (.obj [("a", Value.num 1)]) "\x7b\"a\":1\x7d" = .ok true ↔
        specStructEq (.obj [("a", Value.num 1)])
          (.obj [("a", Value.num 1)]) = true) :=
  ⟨by decide, parse_fact_obj_a1,
    C2_verify_iff_structural_eq _ _ _ (by decide) parse_fact_obj_a1⟩

/-- C3 (confirmed): every disclosure a holder puts into a presentation is
drawn from the issued token's disclosure list: each selected disclosure
equals one of the issuance (byte-for-byte, as disclosures are compared
whole), and the selection's cardinality as a set is at most the
issuance's. -/
theorem C3_presentation_disclosures_subset (ds : List Disclosure)
    (ctd prot : Value) :
    (∀ d ∈ holderSelect ds ctd prot, d ∈ ds) ∧
      (holderSelect ds ctd prot).toFinset.card ≤ ds.toFinset.card := by
  refine ⟨holderSelect_subset ds ctd prot, Finset.card_le_card ?_⟩
  intro x hx
  rw [List.mem_toFinset] at hx ⊢
  exact holderSelect_subset ds ctd prot x hx

/-- C4 (confirmed): in `create_presentation`, a top-level claim value
supplied as a plain string is re-parsed: a string parsing as a JSON
object or array reaches the holder as that structured value, while a
string parsing as a JSON number is kept as the original string. -/
theorem C4_string_claim_coercion (json : String)
    (kvs ctd : List (String × Value))
    (hparse : parseJson json = some (.obj kvs))
    (hok : createPresentationPre json = .ok ctd)
    (k s : String) (hmem : (k, Value.str s) ∈ kvs) :
    (∀ o, parseJson s = some (.obj o) → (k, Value.obj o) ∈ ctd) ∧
    (∀ xs, parseJson s = some (.arr xs) → (k, Value.arr xs) ∈ ctd) ∧
    (∀ n : Int, parseJson s = some (.num n) → (k, Value.str s) ∈ ctd) := by
  rw [createPresentationPre, hparse] at hok
  dsimp only at hok
  cases hc : convert kvs with
  | ok hm =>
    rw [hc] at hok
    dsimp only at hok
    cases hok
    have hcd : (k, coerceClaimStr s) ∈
        hm.map (fun p => (p.1, coerceClaimStr p.2)) :=
      List.mem_map_of_mem _ (convert_mem_str hc hmem)
    exact ⟨fun o ho => by rwa [coerce_of_parse_obj ho] at hcd,
      fun xs hx => by rwa [coerce_of_parse_arr hx] at hcd,
      fun n hn => by rwa [coerce_of_parse_num hn] at hcd⟩
  | err e => rw [hc] at hok; cases hok
  | aborted m => rw [hc] at hok; cases hok

theorem C4_coercion_witness :
    parseJson "\x7b\"a\":\"12\"\x7d" = some (.obj [("a", Value.str "12")]) ∧
      createPresentationPre "\x7b\"a\":\"12\"\x7d" =
        .ok [("a", Value.str "12")] ∧
      ((∀ o, parseJson "12" = some (.obj o) →
          ("a", Value.obj o) ∈ [("a", Value.str "12")]) ∧
        (∀ xs, parseJson "12" = some (.arr xs) →
          ("a", Value.arr xs) ∈ [("a", Value.str "12")]) ∧
        (∀ n : Int, parseJson "12" = some (.num n) →
          ("a", Value.str "12") ∈ [("a", Value.str "12")])) :=
  ⟨parse_fact_obj_a_str12, cpp_fact_a_str12,
    C4_string_claim_coercion _ _ _ parse_fact_obj_a_str12 cpp_fact_a_str12
      "a" "12" (by decide)⟩

/-- C5 (corrected): contrary to the spec's propagation policy,
`create_presentation` does not return typed errors on malformed input: it
aborts the process.  Unparsable JSON hits the `unwrap` of the parse, a
non-object document hits the `unwrap` of `as_object`, and a top-level
boolean, null or array value hits `convert`'s
panic!-style abort "Should never be an error here". -/
theorem C5_create_presentation_abort_modes (json : String) :
    (parseJson json = none → createPresentationPre json =
      .aborted "called `Result::unwrap()` on an `Err` value") ∧
    (∀ v, parseJson json = some v → v.isObject = false →
      createPresentationPre json =
        .aborted "called `Option::unwrap()` on a `None` value") ∧
    (∀ kvs k, parseJson json = some (.obj kvs) →
      ((k, Value.null) ∈ kvs ∨ (∃ b, (k, Value.bool b) ∈ kvs) ∨
        (∃ xs, (k, Value.arr xs) ∈ kvs)) →
      createPresentationPre json =
        .aborted "Should never be an error here") := by
  refine ⟨fun h => ?_, fun v hv hno => ?_, fun kvs k hv hbad => ?_⟩
  · rw [createPresentationPre, h]
  · rw [createPresentationPre, hv]
    cases v with
    | obj kvs => simp [Value.isObject] at hno
    | null => rfl
    | bool b => rfl
    | num n => rfl
    | str t => rfl
    | arr xs => rfl
  · rw [createPresentationPre, hv]
    dsimp only
    rw [convert_aborted_of_bad k hbad]

theorem C5_create_presentation_panics :
    createPresentationPre "not json" =
        .aborted "called `Result::unwrap()` on an `Err` value" ∧
      createPresentationPre "[1,2]" =
        .aborted "called `Option::unwrap()` on a `None` value" ∧
      createPresentationPre "\x7b\"a\":true\x7d" =
        .aborted "Should never be an error here" := by
  refine ⟨?_, ?_, ?_⟩
  · rw [createPresentationPre, parse_fact_notjson]
  · rw [createPresentationPre, parse_fact_arr12]
  · rw [createPresentationPre, parse_fact_obj_a_true]
    rfl

/-- C6 (corrected): a presentation whose issuer JWT names an algorithm
outside the supported set does make the verifier's construction fail, but
by aborting the process ("Unsupported algorithm" panic), not by the
explicit unsupported-algorithm error the spec asks for. -/
theorem C6_unsupported_algorithm_aborts (alg : Algorithm)
    (h : alg ∉ supportedAlgorithms) :
    resolveKey alg = .aborted "Unsupported algorithm" := by
  cases alg <;> first | rfl | exact absurd (by decide) h

theorem C6_unsupported_witness :
    Algorithm.HS384 ∉ supportedAlgorithms ∧
      resolveKey .HS384 = .aborted "Unsupported algorithm" :=
  ⟨by decide, C6_unsupported_algorithm_aborts .HS384 (by decide)⟩

theorem C6_unsupported_algorithm_panic :
    resolveKey .HS256 = .aborted "Unsupported algorithm" := rfl

/-- C7 (confirmed): the verifier's key-resolution closure decodes the
supplied key material as an EC PEM for ES256 and ES384, as an RSA PEM for
RS256, RS384 and RS512, and as an Ed25519 PEM for EdDSA. -/
theorem C7_key_resolution_table :
    resolveKey .ES256 = .decoded .ecPem ∧
      resolveKey .ES384 = .decoded .ecPem ∧
      resolveKey .RS256 = .decoded .rsaPem ∧
      resolveKey .RS384 = .decoded .rsaPem ∧
      resolveKey .RS512 = .decoded .rsaPem ∧
      resolveKey .EdDSA = .decoded .edPem := by
  decide

/-- C8 (corrected): an issuance call whose `user_claims` is not valid
JSON fails with the `Unspecified` error kind (the wrapper maps the serde
failure with `SDJWTError::Unspecified`), not with the
`DeserializationError` kind the spec names for malformed JSON. -/
theorem C8_invalid_json_issue_error
    (core : Value → Strategy → Except ErrKind String) (user_claims : String)
    (strategy : Strategy) (h : parseJson user_claims = none) :
    issue_sd_jwt core user_claims strategy = .error .Unspecified := by
  rw [issue_sd_jwt, h]

theorem C8_issue_error_witness :
    parseJson "not json" = none ∧
      issue_sd_jwt (fun _ _ => .ok "") "not json" .NoSDClaims =
        .error .Unspecified :=
  ⟨parse_fact_notjson,
    C8_invalid_json_issue_error _ _ _ parse_fact_notjson⟩

theorem C8_unspecified_not_deserialization :
    issue_sd_jwt (fun _ _ => .ok "") "not json" .AllLevels =
        .error .Unspecified ∧
      ErrKind.Unspecified ≠ ErrKind.DeserializationError := by
  refine ⟨?_, by decide⟩
  rw [issue_sd_jwt, parse_fact_notjson]

/-- C9 (confirmed): in `create_presentation`'s re-parse of converted
string values, a string parsing as a JSON boolean or null reaches the
holder as the structured boolean or null, while a string parsing as a
JSON number is kept as the original string — the asymmetry the spec's
number-only coercion rule does not mention. -/
theorem C9_bool_null_coercion (s : String) :
    (∀ b, parseJson s = some (.bool b) → coerceClaimStr s = .bool b) ∧
    (parseJson s = some .null → coerceClaimStr s = .null) ∧
    (∀ n : Int, parseJson s = some (.num n) → coerceClaimStr s = .str s) :=
  ⟨fun b h => coerce_of_parse_bool h, fun h => coerce_of_parse_null h,
    fun n h => coerce_of_parse_num h⟩

theorem C9_coercion_witness :
    coerceClaimStr "true" = .bool true ∧ coerceClaimStr "null" = .null ∧
      coerceClaimStr "7" = .str "7" :=
  ⟨(C9_bool_null_coercion "true").1 true parse_fact_true,
    (C9_bool_null_coercion "null").2.1 parse_fact_null,
    (C9_bool_null_coercion "7").2.2 7 parse_fact_num7⟩

/-- C10 (confirmed): a JSON string accepted by `JwkValue::new` round
trips: `get_json` of the decoded JWK is a string that `JwkValue::new`
decodes back to the same JWK. -/
theorem C10_jwk_decode_encode_round_trip (s : String) (j : Jwk)
    (h : JwkValue.new s = .ok j) :
    JwkValue.new (JwkValue.get_json j) = .ok j := by
  obtain ⟨hkty, hnd, hnk⟩ := JwkValue_new_props h
  rw [JwkValue.get_json, JwkValue.new,
    parseJson_printJson _ (jwkToValue_wf j hnd hnk)]
  dsimp only
  rw [jwkFromValue_roundtrip j hkty hnk]

theorem C10_jwk_round_trip_witness :
    JwkValue.new "\x7b\"kty\":\"EC\",\"x\":\"1\"\x7d" =
        .ok ⟨"EC", [("x", "1")]⟩ ∧
      JwkValue.new (JwkValue.get_json (⟨"EC", [("x", "1")]⟩ : Jwk)) =
        .ok ⟨"EC", [("x", "1")]⟩ :=
  ⟨jwk_new_fact, C10_jwk_decode_encode_round_trip _ _ jwk_new_fact⟩

end SDJWT
